import Mathlib

/-!
Verification of the stream-merge repository's core algorithms:
the K-way tournament-tree merger (`src/tournament_tree.rs`), the pcap
packet parser (`src/pcap/mod.rs`), the delayed-prefetch stream combinator
(`src/util/mod.rs`) and the output writer of `src/bin/merge_pcaps.rs`.

Machine integers are modelled as `Nat` with explicit truncation where the
source casts (`as u16` becomes `% 65536`, `u64` sums become `% 2^64`).
Input streams (the `Mergeable` capability) are modelled as lists of
`(timestamp, data)` pairs: `peek_timestamp` returns the head timestamp or
`MAX_U64` when the list is empty, `pop` returns the head and advances,
exactly as the repository's iterator-backed `InputStream`/`PacketStream`
implementations do.
-/

namespace StreamMerge

/-- `std::u64::MAX`, the exhaustion sentinel of the tournament tree. -/
def U64MAX : Nat := 2 ^ 64 - 1

/-- Truncation applied where the source casts a value `as u16`. -/
def u16of (n : Nat) : Nat := n % 65536

/-- Rust's `usize::next_power_of_two`: the smallest power of two that is
greater than or equal to `n` (with `next_power_of_two 0 = 1`). -/
def nextPow2 (n : Nat) : Nat :=
  if n ≤ 1 then 1 else 2 * nextPow2 ((n + 1) / 2)
termination_by n
decreasing_by simp_wf; omega

/-- `Mergeable::peek_timestamp` for a list-backed input stream: the head
timestamp, or `MAX_U64` once the stream is exhausted. -/
def peekTs {α : Type} (s : List (Nat × α)) : Nat :=
  match s with
  | [] => U64MAX
  | p :: _ => p.1

/-- `tournament_tree::Tree`.  `nodes` is the implicit binary tree of
`u16` winner indices, `values` the per-leaf head timestamps, and
`input_streams` the owned inputs (kept at full length `N ≤ K`). -/
structure Tree (α : Type) where
  needs_updating : Bool
  winning_value_index : Nat
  nodes : List Nat
  values : List Nat
  input_streams : List (List (Nat × α))

namespace Tree

variable {α : Type}

/-- The leaf `values` after `Tree::new`'s first loop: each of the `K`
slots is initialised to `MAX_U64` and then, for `i < N`, overwritten with
`input_streams[i].peek_timestamp()` (which is itself `MAX_U64` for an
empty input, so slots `N ≤ i < K` keep the sentinel). -/
def leafValues (streams : List (List (Nat × α))) (K : Nat) : List Nat :=
  (List.range K).map (fun i => peekTs (streams.getD i []))

/-- The odd-`i` half of `Tree::new`'s first loop: for every adjacent leaf
pair, the parent node at `K/2 + i/2` stores the index of the smaller
value (ties to the even, lower index). -/
def lowestLevel (values nodes : List Nat) (K : Nat) : List Nat :=
  (List.range K).foldl
    (fun nd i =>
      if i % 2 ≠ 0 then
        nd.set (K / 2 + i / 2)
          (u16of (if values.getD i 0 < values.getD (i - 1) 0 then i else i - 1))
      else nd)
    nodes

/-- One `for i in level_start..(2*level_start)` row of `Tree::new`'s
level-filling loop: each parent compares the two child-indexed values. -/
def fillRow (values nodes : List Nat) (ls : Nat) : List Nat :=
  (List.range ls).foldl
    (fun nd j =>
      let i := ls + j
      let l := nd.getD (2 * i) 0
      let r := nd.getD (2 * i + 1) 0
      nd.set i (if values.getD l 0 < values.getD r 0 then l else r))
    nodes

/-- The `while level_start > 0` loop of `Tree::new`. -/
def fillLevels (values nodes : List Nat) (ls : Nat) : List Nat :=
  if ls = 0 then nodes
  else fillLevels values (fillRow values nodes ls) (ls / 2)
termination_by ls
decreasing_by simp_wf; omega

/-- `Tree::new`.  `K = 1` when there is exactly one input, otherwise
`input_streams.len().next_power_of_two()`; leaf values are peeked, the
lowest internal level is filled pairwise, the remaining levels bottom-up,
and the root winner is cached (the source sets each leaf value before the
odd-`i` comparison that reads it, so value filling and the lowest level
are equivalently split into two passes here). -/
def new (streams : List (List (Nat × α))) : Tree α :=
  let K := if streams.length = 1 then 1 else nextPow2 streams.length
  let values := leafValues streams K
  let nodes0 := List.replicate K (u16of (K - 1))
  let nodes1 := lowestLevel values nodes0 K
  let nodes := fillLevels values nodes1 (K / 4)
  { needs_updating := false
    winning_value_index := if K > 1 then nodes.getD 1 0 else 0
    nodes := nodes
    values := values
    input_streams := streams }

/-- The `while changed_index > 3` loop of `Tree::update_winner`: walk to
the root, at each step comparing the running candidate against the
opposite subtree's cached winner and updating only on improvement.
Returns the updated nodes, candidate value, candidate index and the final
`changed_index` (which is `2` or `3` whenever the entry value was). -/
def updateLoop (values nodes : List Nat) (wv wvi ci : Nat) :
    List Nat × Nat × Nat × Nat :=
  if ci > 3 then
    let parent := ci / 2
    let svi := nodes.getD (ci ^^^ 1) 0
    let sv := values.getD svi 0
    let wv' := if sv < wv then sv else wv
    let wvi' := if sv < wv then svi else wvi
    updateLoop values (nodes.set parent wvi') wv' wvi' parent
  else (nodes, wv, wvi, ci)
termination_by ci
decreasing_by simp_wf; omega

/-- `Tree::update_winner`: refresh the path from the changed leaf to the
root.  The sibling leaf is compared first; if the leaf-pair parent is an
internal node the loop propagates upward and a final comparison against
the opposite half of the tree decides the cached global winner. -/
def update_winner (t : Tree α) (c : Nat) : Tree α :=
  if t.nodes.length > 1 then
    let parent := t.nodes.length / 2 + c / 2
    let wv0 := t.values.getD c 0
    let sv := t.values.getD (c ^^^ 1) 0
    let wv1 := if sv < wv0 then sv else wv0
    let wvi1 := if sv < wv0 then c ^^^ 1 else c
    if parent > 1 then
      let r := updateLoop t.values (t.nodes.set parent wvi1) wv1 wvi1 parent
      let svi := r.1.getD (r.2.2.2 ^^^ 1) 0
      let sv2 := t.values.getD svi 0
      let wvi3 := if r.2.1 > sv2 then svi else r.2.2.1
      { t with nodes := r.1, winning_value_index := wvi3 }
    else
      { t with winning_value_index := wvi1 }
  else t

/-- `Mergeable::pop` for a list-backed input stream. -/
def streamPop {α : Type} (s : List (Nat × α)) : Option (Nat × α) × List (Nat × α) :=
  match s with
  | [] => (none, [])
  | p :: rest => (some p, rest)

/-- `Tree::pop`: refresh the previous winner's leaf when needed, then
either report exhaustion (`values[winning_value_index] == MAX_U64`) or
consume and return the winning stream's packet. -/
def pop (t : Tree α) : Option (Nat × α) × Tree α :=
  let t :=
    if t.needs_updating then
      let w := t.winning_value_index
      update_winner
        { t with values := t.values.set w (peekTs (t.input_streams.getD w [])) }
        (u16of w)
    else t
  if t.values.getD t.winning_value_index 0 = U64MAX then
    (none, t)
  else
    let w := t.winning_value_index
    let r := streamPop (t.input_streams.getD w [])
    (r.1, { t with needs_updating := true, input_streams := t.input_streams.set w r.2 })

/-- Repeatedly call `Tree::pop` until it returns `None` (bounded by
`fuel`), collecting the emitted packets. -/
def drain (t : Tree α) : Nat → List (Nat × α)
  | 0 => []
  | fuel + 1 =>
    match t.pop with
    | (none, _) => []
    | (some p, t') => p :: t'.drain fuel

/-- Iterate the state component of `Tree::pop`. -/
def popN (t : Tree α) : Nat → Tree α
  | 0 => t
  | n + 1 => (t.pop).2.popN n

end Tree

/-- Total number of packets across all input streams. -/
def totalLen {α : Type} (streams : List (List (Nat × α))) : Nat :=
  (streams.map List.length).sum

/-! ## Pcap parser (`src/pcap/mod.rs`)

Bytes are modelled as `Nat`s (< 256 for well-formed inputs); the
underlying `AsyncRead` reader is modelled as the list of byte chunks its
successive `poll_read` calls return, with an exhausted reader returning
an empty read (0 bytes). -/

/-- Little-endian `u32` decode at `off` (as `nom`'s `le_u32` does). -/
def u32le (b : List Nat) (off : Nat) : Nat :=
  b.getD off 0 + 256 * b.getD (off + 1) 0 + 65536 * b.getD (off + 2) 0 +
    16777216 * b.getD (off + 3) 0

/-- Big-endian `u32` decode at `off` (as `nom`'s `be_u32` does). -/
def u32be (b : List Nat) (off : Nat) : Nat :=
  b.getD (off + 3) 0 + 256 * b.getD (off + 2) 0 + 65536 * b.getD (off + 1) 0 +
    16777216 * b.getD off 0

/-- Little-endian `u16` decode at `off`. -/
def u16le (b : List Nat) (off : Nat) : Nat :=
  b.getD off 0 + 256 * b.getD (off + 1) 0

/-- The `u32` decoder matching the file's endianness. -/
def u32end (be : Bool) : List Nat → Nat → Nat :=
  if be then u32be else u32le

/-- `pcap_parser::pcap::LegacyPcapBlock`: the decoded 16-byte record
header fields plus the `caplen`-byte payload. -/
structure LegacyPcapBlock where
  ts_sec : Nat
  ts_usec : Nat
  caplen : Nat
  origlen : Nat
  data : List Nat

/-- A `nom` parse outcome: success with the remaining input, an
incomplete input needing more bytes, or a hard parse error. -/
inductive ParseResult (β : Type) where
  | ok (rem : List Nat) (blk : β)
  | incomplete
  | error
deriving DecidableEq, Repr

/-- `pcap_parser::pcap::parse_pcap_frame` / `parse_pcap_frame_be`
(external dependency, modelled from the classic pcap record layout of
spec §3, which it implements): a 16-byte record header
`{ts_sec, ts_usec, caplen, origlen}` in the file's endianness followed by
`caplen` payload bytes; fewer bytes are an incomplete parse.  The legacy
frame parser performs no validation, so it never produces `error`. -/
def parse_pcap_frame (be : Bool) (b : List Nat) : ParseResult LegacyPcapBlock :=
  if b.length < 16 then .incomplete
  else
    let caplen := u32end be b 8
    if b.length < 16 + caplen then .incomplete
    else .ok (b.drop (16 + caplen))
      ⟨u32end be b 0, u32end be b 4, caplen, u32end be b 12, (b.drop 16).take caplen⟩

/-- The `u64` nanosecond timestamp computed in `Packets::poll_next`:
`packet.ts_sec as u64 * 1000000000 + packet.ts_usec as u64 * multiplier`
(`u64` arithmetic, hence the `2^64` reduction). -/
def nanosecondTs (ts_sec ts_frac mult : Nat) : Nat :=
  (ts_sec * 1000000000 + ts_frac * mult) % 2 ^ 64

/-- `pcap::Packets`: the parser's stream state.  `chunks` models the
pending reads of the wrapped reader; `reader_exhausted` is initialised
`false` by `Packets::new` and — as in the source — never mutated. -/
structure Packets where
  ts_usec_multiplier : Nat
  buffer : List Nat
  chunks : List (List Nat)
  reader_exhausted : Bool
  is_bigendian : Bool
deriving DecidableEq, Repr

/-- One item of the `Packets` stream: a `(nanosecond_ts, verbatim record
bytes)` pair or a parse error. -/
abbrev PItem := Except Unit (Nat × List Nat)

/-- The `loop` body of `Packets::poll_next`: parse the buffered bytes; on
success emit the split-off verbatim record bytes with the normalised
timestamp, on error surface the error, on incomplete pull the reader once
(a 0-byte read yields stream completion) and retry. -/
def pollLoop (be : Bool) (mult : Nat) :
    List Nat → List (List Nat) → Option (PItem × List Nat × List (List Nat))
  | buffer, chunks =>
    match parse_pcap_frame be buffer with
    | .ok rem blk =>
      let packet_n_bytes := buffer.length - rem.length
      some (.ok (nanosecondTs blk.ts_sec blk.ts_usec mult, buffer.take packet_n_bytes),
        rem, chunks)
    | .error => some (.error (), buffer, chunks)
    | .incomplete =>
      match chunks with
      | [] => none
      | c :: rest => if c.isEmpty then none else pollLoop be mult (buffer ++ c) rest

/-- `Packets::poll_next` (`Stream::poll_next`): completion when the
buffer is empty and the reader was marked exhausted, otherwise run the
parse loop.  `none` models `Poll::Ready(None)`. -/
def Packets.poll_next (st : Packets) : Option (PItem × Packets) :=
  if st.buffer.isEmpty ∧ st.reader_exhausted then none
  else
    match pollLoop st.is_bigendian st.ts_usec_multiplier st.buffer st.chunks with
    | none => none
    | some (item, buf, chs) => some (item, { st with buffer := buf, chunks := chs })

/-- The four classic pcap magics, as they appear as leading file bytes
(spec §3): value `A1B2C3D4` little-endian = bytes `D4 C3 B2 A1`, etc.
Returns `(is_bigendian, is_nanosecond_precision)`. -/
def pcapMagic (b : List Nat) : Option (Bool × Bool) :=
  if b.length < 24 then none
  else
    match b.take 4 with
    | [0xD4, 0xC3, 0xB2, 0xA1] => some (false, false)
    | [0xA1, 0xB2, 0xC3, 0xD4] => some (true, false)
    | [0x4D, 0x3C, 0xB2, 0xA1] => some (false, true)
    | [0xA1, 0xB2, 0x3C, 0x4D] => some (true, true)
    | _ => none

/-- `Packets::new`: validate the 24-byte pcap file header
(`parse_pcap_header` of the external pcap-parser crate accepts exactly
the four classic magics), set `ts_usec_multiplier` to 1 for
nanosecond-precision files and 1000 otherwise, select the big- or
little-endian record parser, and start with an empty buffer and an
unread reader. -/
def Packets.new (header : List Nat) (chunks : List (List Nat)) : Option Packets :=
  match pcapMagic header with
  | none => none
  | some (be, ns) =>
    some { ts_usec_multiplier := if ns then 1 else 1000
           buffer := []
           chunks := chunks
           reader_exhausted := false
           is_bigendian := be }

/-- Drain the `Packets` stream: repeatedly `poll_next` until completion
(bounded by `fuel`), collecting the yielded items. -/
def Packets.drain (st : Packets) : Nat → List PItem
  | 0 => []
  | fuel + 1 =>
    match st.poll_next with
    | none => []
    | some (item, st') => item :: st'.drain fuel

/-! ## Delayed-prefetch buffer (`src/util/mod.rs`)

`TakeThenBuffered` over a source stream of already-ready futures: the
source is a list, the fused source's `is_done` flag is `done`, and the
`FuturesOrdered` queue of ready futures delivers in FIFO order. -/

/-- `util::TakeThenBuffered` state. -/
structure TakeThenBuffered (α : Type) where
  stream : List α
  done : Bool
  in_progress_queue : List α
  take_n_serially : Nat
  max_n_buffered : Nat
deriving DecidableEq, Repr

/-- A `Poll` outcome of `poll_next`. -/
inductive PollRes (α : Type) where
  | pending
  | ready (item : Option α)
deriving DecidableEq, Repr

namespace TakeThenBuffered

variable {α : Type}

/-- `TakeThenBuffered::new`. -/
def new (stream : List α) (take_n_serially max_n_buffered : Nat) :
    TakeThenBuffered α :=
  { stream := stream
    done := false
    in_progress_queue := []
    take_n_serially := take_n_serially
    max_n_buffered := max_n_buffered }

/-- The fill loop of `poll_next`: while the in-progress queue holds fewer
futures than the effective target (1 while `take_n_serially > 0`, else
`max_n_buffered`), pull from the source and enqueue, saturating-decrement
`take_n_serially`; a `None` from the fused source marks it done. -/
def fillLoop (s : TakeThenBuffered α) : TakeThenBuffered α :=
  if s.in_progress_queue.length <
      (if s.take_n_serially > 0 then 1 else s.max_n_buffered) then
    match h : s.stream with
    | [] => { s with done := true }
    | x :: rest =>
      fillLoop { s with stream := rest
                        in_progress_queue := s.in_progress_queue ++ [x]
                        take_n_serially := s.take_n_serially - 1 }
  else s
termination_by s.stream.length
decreasing_by simp_wf; simp [h]

/-- `TakeThenBuffered::poll_next`: fill the queue, then deliver the next
in-order result; when the queue is empty, completion if the source is
done and `Pending` otherwise. -/
def poll_next (s : TakeThenBuffered α) : PollRes α × TakeThenBuffered α :=
  let s := s.fillLoop
  match s.in_progress_queue with
  | x :: rest => (.ready (some x), { s with in_progress_queue := rest })
  | [] => if s.done then (.ready none, s) else (.pending, s)

/-- Poll repeatedly, recording each poll's outcome and the length of the
in-progress queue right after it (the quantity the repository's unit
test asserts on). -/
def trace (s : TakeThenBuffered α) : Nat → List (PollRes α × Nat)
  | 0 => []
  | n + 1 =>
    let r := s.poll_next
    (r.1, r.2.in_progress_queue.length) :: r.2.trace n

end TakeThenBuffered

/-! ## Output writer (`src/bin/merge_pcaps.rs`) -/

/-- The fixed header bytes written by `main` before any packet: the
`hex_literal` constant `PCAP_HDR_NSEC`. -/
def PCAP_HDR_NSEC : List Nat :=
  [0x4D, 0x3C, 0xB2, 0xA1, 0x02, 0x00, 0x04, 0x00,
   0x00, 0x00, 0x00, 0x00, 0x00, 0x00, 0x00, 0x00,
   0x00, 0x00, 0x04, 0x00, 0x01, 0x00, 0x00, 0x00]

/-- The byte sequence `main` writes to its buffered stdout writer: the
fixed nanosecond pcap header followed by each popped packet's verbatim
record bytes, in merge order. -/
def mergedOutput (streams : List (List (Nat × List Nat))) : List Nat :=
  PCAP_HDR_NSEC ++
    (((Tree.new streams).drain (totalLen streams + 1)).map Prod.snd).flatten

/-! ## Auxiliary specification-side definitions -/

/-- A well-formed on-disk pcap record in endianness `be`: a 16-byte
header followed by exactly `caplen` payload bytes. -/
def recordWF (be : Bool) (r : List Nat) : Prop :=
  16 ≤ r.length ∧ r.length = 16 + u32end be r 8

instance (be : Bool) (r : List Nat) : Decidable (recordWF be r) := by
  unfold recordWF; infer_instance

/-- The stream item `Packets` is expected to yield for a record `r`. -/
def recItem (be : Bool) (mult : Nat) (r : List Nat) : PItem :=
  .ok (nanosecondTs (u32end be r 0) (u32end be r 4) mult, r)

/-- `p` is an ancestor-or-self of heap slot `m` (obtained from `m` by
iterated halving). -/
def anc (p m : Nat) : Prop := ∃ d, m / 2 ^ d = p

/-- Internal node `p` of a `K`-leaf tree covers leaf `j` (leaf `j` lives
at slot `K + j` of the implicit tree). -/
def covers (K p j : Nat) : Prop := anc p (K + j)

/-- `nodes[p]` stores the index of a minimum-value leaf of the subtree
rooted at `p` — invariant (1) of spec §3 at node `p`. -/
def MinAt (nodes values : List Nat) (K p : Nat) : Prop :=
  nodes.getD p 0 < K ∧ covers K p (nodes.getD p 0) ∧
    ∀ j, j < K → covers K p j →
      values.getD (nodes.getD p 0) 0 ≤ values.getD j 0

namespace Tree

variable {α : Type}

/-- The tree states reachable from `Tree::new` on a given input vector
by repeatedly calling `Tree::pop`. -/
inductive Reachable (streams : List (List (Nat × α))) : Tree α → Prop where
  | base : Reachable streams (Tree.new streams)
  | step {t : Tree α} : Reachable streams t → Reachable streams (t.pop).2

/-- The state invariant of the tournament tree, relating `nodes`,
`values`, the cached winner and the remaining input streams.  It holds
for `Tree::new`'s result and is preserved by `Tree::pop` (for inputs
that are individually non-decreasing, with genuine timestamps below the
`MAX_U64` sentinel and a fan-in that fits the `u16` node indices). -/
structure Inv (t : Tree α) : Prop where
  kpow : ∃ k, t.nodes.length = 2 ^ k
  vlen : t.values.length = t.nodes.length
  slen : t.input_streams.length ≤ t.nodes.length
  ksmall : t.nodes.length ≤ 2 ^ 16
  wlt : t.winning_value_index < t.nodes.length
  nodesInv : ∀ p, 2 ≤ p → p < t.nodes.length →
    MinAt t.nodes t.values t.nodes.length p
  winMin : ∀ j, j < t.nodes.length →
    t.values.getD t.winning_value_index 0 ≤ t.values.getD j 0
  vbound : ∀ j, j < t.nodes.length → t.values.getD j 0 ≤ U64MAX
  fresh : ∀ j, j < t.nodes.length →
    (t.needs_updating = true → j ≠ t.winning_value_index) →
    t.values.getD j 0 = peekTs (t.input_streams.getD j [])
  exhaustedPath : t.needs_updating = true →
    t.values.getD t.winning_value_index 0 = U64MAX →
    ∀ p, 2 ≤ p → p < t.nodes.length → covers t.nodes.length p t.winning_value_index →
      t.nodes.getD p 0 = t.winning_value_index
  sorted : ∀ s ∈ t.input_streams, List.Pairwise (fun p q => p.1 ≤ q.1) s
  tsbound : ∀ s ∈ t.input_streams, ∀ p ∈ s, p.1 < U64MAX

/-- `update_winner`'s loop instrumented with a counter of timestamp-value
comparisons (one per iteration). -/
def updateLoopC (values nodes : List Nat) (wv wvi ci cnt : Nat) :
    (List Nat × Nat × Nat × Nat) × Nat :=
  if ci > 3 then
    let parent := ci / 2
    let svi := nodes.getD (ci ^^^ 1) 0
    let sv := values.getD svi 0
    let wv' := if sv < wv then sv else wv
    let wvi' := if sv < wv then svi else wvi
    updateLoopC values (nodes.set parent wvi') wv' wvi' parent (cnt + 1)
  else ((nodes, wv, wvi, ci), cnt)
termination_by ci
decreasing_by simp_wf; omega

/-- `update_winner` instrumented with a counter of timestamp-value
comparisons: the sibling-leaf comparison, one comparison per loop level,
and the final comparison at the root. -/
def update_winnerC (t : Tree α) (c : Nat) : Tree α × Nat :=
  if t.nodes.length > 1 then
    let parent := t.nodes.length / 2 + c / 2
    let wv0 := t.values.getD c 0
    let sv := t.values.getD (c ^^^ 1) 0
    let wv1 := if sv < wv0 then sv else wv0
    let wvi1 := if sv < wv0 then c ^^^ 1 else c
    if parent > 1 then
      let r := updateLoopC t.values (t.nodes.set parent wvi1) wv1 wvi1 parent 0
      let svi := r.1.1.getD (r.1.2.2.2 ^^^ 1) 0
      let sv2 := t.values.getD svi 0
      let wvi3 := if r.1.2.1 > sv2 then svi else r.1.2.2.1
      ({ t with nodes := r.1.1, winning_value_index := wvi3 }, 1 + r.2 + 1)
    else
      ({ t with winning_value_index := wvi1 }, 1)
  else (t, 0)

/-- `Tree::pop` instrumented with the number of timestamp-value
comparisons performed on its update path. -/
def popC (t : Tree α) : (Option (Nat × α) × Tree α) × Nat :=
  let r :=
    if t.needs_updating then
      let w := t.winning_value_index
      update_winnerC
        { t with values := t.values.set w (peekTs (t.input_streams.getD w [])) }
        (u16of w)
    else (t, 0)
  let t := r.1
  ((if t.values.getD t.winning_value_index 0 = U64MAX then
      (none, t)
    else
      let w := t.winning_value_index
      let s := streamPop (t.input_streams.getD w [])
      (s.1, { t with needs_updating := true, input_streams := t.input_streams.set w s.2 })),
   r.2)

end Tree

/-! ## List and arithmetic helpers -/

theorem getD_set_self {β : Type} {l : List β} {i : Nat} {d : β} (h : i < l.length)
    (v : β) : (l.set i v).getD i d = v := by
  rw [List.getD_eq_getElem _ _ (by simpa using h)]
  simp [List.getElem_set_self]

theorem getD_set_ne {β : Type} {l : List β} {i j : Nat} {d : β} (h : i ≠ j)
    (v : β) : (l.set i v).getD j d = l.getD j d := by
  simp [List.getD, List.getElem?_set_ne h]

theorem set_getD_self {β : Type} {l : List β} {i : Nat} {d : β} {v : β}
    (hi : i < l.length) (h : l.getD i d = v) : l.set i v = l := by
  subst h
  rw [List.getD_eq_getElem _ _ hi]
  apply List.ext_getElem?
  intro n
  by_cases hn : n = i
  · subst hn
    rw [List.getElem?_set_self', List.getElem?_eq_getElem hi]
    rfl
  · rw [List.getElem?_set_ne (fun hc => hn hc.symm)]

/-- For an individually non-decreasing stream, the peeked head timestamp
bounds every element. -/
theorem peek_le_of_mem {α : Type} {s : List (Nat × α)}
    (hs : List.Pairwise (fun a b => a.1 ≤ b.1) s) {q : Nat × α} (hq : q ∈ s) :
    peekTs s ≤ q.1 := by
  cases s with
  | nil => cases hq
  | cons hd tl =>
    rcases List.mem_cons.mp hq with rfl | hmem
    · exact le_refl _
    · exact (List.pairwise_cons.mp hs).1 q hmem

theorem peekTs_le {α : Type} {s : List (Nat × α)} (h : ∀ q ∈ s, q.1 < U64MAX) :
    peekTs s ≤ U64MAX := by
  cases s with
  | nil => exact le_refl _
  | cons hd tl => exact le_of_lt (h hd (List.mem_cons_self _ _))

theorem peekTs_eq_max_iff {α : Type} {s : List (Nat × α)}
    (h : ∀ q ∈ s, q.1 < U64MAX) : peekTs s = U64MAX ↔ s = [] := by
  cases s with
  | nil => simp [peekTs]
  | cons hd tl =>
    simp only [peekTs]
    constructor
    · intro hcontra
      exact absurd hcontra (Nat.ne_of_lt (h hd (List.mem_cons_self _ _)))
    · intro hcontra
      cases hcontra

/-- A `MinAt` fact survives a `values` write outside the node's subtree. -/
theorem minAt_set_non_covered {nodes v : List Nat} {K p w x : Nat}
    (hm : MinAt nodes v K p) (hncov : ¬ covers K p w) :
    MinAt nodes (v.set w x) K p := by
  obtain ⟨h1, h2, h3⟩ := hm
  refine ⟨h1, h2, ?_⟩
  intro j hj hcov
  have hjw : j ≠ w := fun hcontra => hncov (hcontra ▸ hcov)
  have hnw : nodes.getD p 0 ≠ w := fun hcontra => hncov (hcontra ▸ h2)
  rw [getD_set_ne (fun h => hjw h.symm), getD_set_ne (fun h => hnw h.symm)]
  exact h3 j hj hcov

theorem foldl_length_inv {β : Type} (f : List Nat → β → List Nat)
    (h : ∀ nd b, (f nd b).length = nd.length) (l : List β) :
    ∀ nd, (l.foldl f nd).length = nd.length := by
  induction l with
  | nil => intro nd; rfl
  | cons a l ih => intro nd; rw [List.foldl_cons, ih, h]

theorem length_lowestLevel (v nd : List Nat) (K : Nat) :
    (Tree.lowestLevel v nd K).length = nd.length := by
  unfold Tree.lowestLevel
  apply foldl_length_inv
  intro nd i
  dsimp only
  split <;> simp

theorem length_fillRow (v nd : List Nat) (ls : Nat) :
    (Tree.fillRow v nd ls).length = nd.length := by
  unfold Tree.fillRow
  apply foldl_length_inv
  intro nd i
  simp

theorem length_fillLevels (ls : Nat) : ∀ v nd : List Nat,
    (Tree.fillLevels v nd ls).length = nd.length := by
  induction ls using Nat.strong_induction_on with
  | _ ls ih =>
    intro v nd
    rw [Tree.fillLevels]
    split
    · rfl
    · rw [ih (ls / 2) (by omega), length_fillRow]

theorem length_leafValues {α : Type} (streams : List (List (Nat × α))) (K : Nat) :
    (Tree.leafValues streams K).length = K := by
  simp [Tree.leafValues]

theorem getD_leafValues {α : Type} (streams : List (List (Nat × α))) {K j : Nat}
    (h : j < K) : (Tree.leafValues streams K).getD j 0 = peekTs (streams.getD j []) := by
  rw [List.getD_eq_getElem _ _ (by simpa [Tree.leafValues] using h)]
  simp [Tree.leafValues]

theorem nextPow2_one : nextPow2 1 = 1 := by simp [nextPow2]

theorem new_K_eq {α : Type} (streams : List (List (Nat × α))) :
    (if streams.length = 1 then 1 else nextPow2 streams.length) =
      nextPow2 streams.length := by
  split
  · rename_i h; rw [h, nextPow2_one]
  · rfl

theorem length_values_new {α : Type} (streams : List (List (Nat × α))) :
    (Tree.new streams).values.length = nextPow2 streams.length := by
  simp only [Tree.new]
  rw [length_leafValues, new_K_eq]

theorem length_nodes_new {α : Type} (streams : List (List (Nat × α))) :
    (Tree.new streams).nodes.length = nextPow2 streams.length := by
  simp only [Tree.new]
  rw [length_fillLevels, length_lowestLevel, List.length_replicate, new_K_eq]

theorem values_new {α : Type} (streams : List (List (Nat × α))) :
    (Tree.new streams).values =
      Tree.leafValues streams (if streams.length = 1 then 1 else nextPow2 streams.length) := rfl

theorem streams_new {α : Type} (streams : List (List (Nat × α))) :
    (Tree.new streams).input_streams = streams := rfl

/-! ## C6: leaf-slot count and leaf initialisation of `Tree::new` -/

/-- **C6 counterexample.**  For a single input stream the code computes
`K = 1` leaf slots, while the claimed formula `next_power_of_two(max(N,2))`
gives `2`; the two formulas of the claim are not equivalent at `N = 1`. -/
theorem leaf_count_formula_counterexample :
    (Tree.new [[((5 : Nat), (0 : Nat))]]).values.length = 1 ∧
    nextPow2 (max (List.length [[((5 : Nat), (0 : Nat))]]) 2) = 2 ∧
    (Tree.new [[((5 : Nat), (0 : Nat))]]).values.length ≠
      nextPow2 (max (List.length [[((5 : Nat), (0 : Nat))]]) 2) := by
  refine ⟨?_, ?_, ?_⟩ <;> simp [Tree.new, Tree.leafValues, nextPow2]

/-- **C6 (amended).**  `Tree::new` computes the number of leaf slots as
`K = next_power_of_two(N)` — the next power of two ≥ N, which is 1 for
zero or one inputs (for `N = 1` the code short-circuits to `1`, not to
`next_power_of_two(max(N,2)) = 2`) — and the `K` leaf values are the
`MAX_U64` initialiser wherever no input was peeked (`N ≤ j < K`) and the
peeked head timestamp of input `j` for `j < N`. -/
theorem new_leaf_slots_and_init {α : Type} (streams : List (List (Nat × α))) :
    (Tree.new streams).values.length = nextPow2 streams.length ∧
    (Tree.new streams).nodes.length = nextPow2 streams.length ∧
    (∀ j, streams.length ≤ j → j < nextPow2 streams.length →
      (Tree.new streams).values.getD j 0 = U64MAX) ∧
    (∀ j, j < nextPow2 streams.length →
      (Tree.new streams).values.getD j 0 = peekTs (streams.getD j [])) := by
  have hK := new_K_eq streams
  refine ⟨length_values_new streams, length_nodes_new streams, ?_, ?_⟩
  · intro j hNj hjK
    rw [values_new, getD_leafValues streams (by rw [hK]; exact hjK),
      List.getD_eq_default _ _ (le_trans (le_refl _) hNj)]
    rfl
  · intro j hjK
    rw [values_new, getD_leafValues streams (by rw [hK]; exact hjK)]

/-- **C6 witness.** -/
theorem new_leaf_slots_and_init_witness :
    (Tree.new [[((7 : Nat), (0 : Nat))], [(3, 1)], [(9, 2)]]).values.length = nextPow2 3 ∧
    (Tree.new [[((7 : Nat), (0 : Nat))], [(3, 1)], [(9, 2)]]).values.getD 3 0 = U64MAX ∧
    (Tree.new [[((7 : Nat), (0 : Nat))], [(3, 1)], [(9, 2)]]).values.getD 1 0 =
      peekTs ([[((7 : Nat), (0 : Nat))], [(3, 1)], [(9, 2)]].getD 1 []) := by
  refine ⟨(new_leaf_slots_and_init _).1,
    (new_leaf_slots_and_init _).2.2.1 3 (by norm_num) (by simp [nextPow2]),
    (new_leaf_slots_and_init _).2.2.2 1 (by simp [nextPow2])⟩

/-! ## C5: the delayed-prefetch buffer on the repository's test input -/

/-- **C5.**  For the source stream of eight ready futures `[1..8]` with
`take_n_serially = 3` and `max_n_buffered = 4`, the emitted sequence is
exactly `[1..8]` followed by completion, and the in-progress queue holds
`[0, 0, 3, 3, 3, 2, 1, 0, 0]` futures after the successive polls: it
reaches length 3 once three items have been consumed and never exceeds 3
(the fourth slot turns over within the same poll, as the repository's
unit test notes). -/
theorem take_then_buffered_serial_then_ordered :
    ((TakeThenBuffered.new [1, 2, 3, 4, 5, 6, 7, 8] 3 4).trace 9).map Prod.fst =
      (([1, 2, 3, 4, 5, 6, 7, 8] : List Nat).map (fun x => PollRes.ready (some x)) ++
        [PollRes.ready none]) ∧
    ((TakeThenBuffered.new [1, 2, 3, 4, 5, 6, 7, 8] 3 4).trace 9).map Prod.snd =
      [0, 0, 3, 3, 3, 2, 1, 0, 0] ∧
    ∀ q ∈ ((TakeThenBuffered.new [1, 2, 3, 4, 5, 6, 7, 8] 3 4).trace 9).map Prod.snd,
      q ≤ 3 := by
  have h : (TakeThenBuffered.new [1, 2, 3, 4, 5, 6, 7, 8] 3 4).trace 9 =
      [(.ready (some 1), 0), (.ready (some 2), 0), (.ready (some 3), 3),
       (.ready (some 4), 3), (.ready (some 5), 3), (.ready (some 6), 2),
       (.ready (some 7), 1), (.ready (some 8), 0), (.ready none, 0)] := by
    simp [TakeThenBuffered.new, TakeThenBuffered.trace, TakeThenBuffered.poll_next,
      TakeThenBuffered.fillLoop]
  rw [h]
  refine ⟨rfl, rfl, ?_⟩
  intro q hq
  simp at hq
  omega

/-! ## C9: the fixed output pcap header -/

/-- **C9.**  Whatever the input files are, the merged output starts with
the single fixed 24-byte `PCAP_HDR_NSEC` header: little-endian
nanosecond-precision magic `A1B23C4D`, version 2.4, zero tz offset and
ts accuracy, snaplen 262144 and link-layer type 1. -/
theorem merged_output_fixed_header (streams : List (List (Nat × List Nat))) :
    (mergedOutput streams).take 24 = PCAP_HDR_NSEC ∧
    PCAP_HDR_NSEC.length = 24 ∧
    u32le PCAP_HDR_NSEC 0 = 0xA1B23C4D ∧
    u16le PCAP_HDR_NSEC 4 = 2 ∧
    u16le PCAP_HDR_NSEC 6 = 4 ∧
    u32le PCAP_HDR_NSEC 8 = 0 ∧
    u32le PCAP_HDR_NSEC 12 = 0 ∧
    u32le PCAP_HDR_NSEC 16 = 262144 ∧
    u32le PCAP_HDR_NSEC 20 = 1 := by
  refine ⟨?_, by decide, by decide, by decide, by decide, by decide, by decide,
    by decide, by decide⟩
  rw [mergedOutput, List.take_left' (by decide)]

/-! ## C3: tie-breaking -/

/-- **C3 counterexample.**  Four inputs whose heads all carry timestamp
5 (the payload records the input index): every leaf ties, yet the first
`Tree::pop` returns input 2's packet, not input 0's.  The upper
level-filling comparison `if values[left] < values[right] {left} else
{right}` resolves the 5-vs-5 tie toward the *right* subtree. -/
theorem tie_break_counterexample :
    ((Tree.new [[((5 : Nat), (0 : Nat))], [(5, 1)], [(5, 2)], [(5, 3)]]).pop).1 =
      some (5, 2) ∧
    peekTs ([[((5 : Nat), (0 : Nat))], [(5, 1)], [(5, 2)], [(5, 3)]].getD 0 []) = 5 ∧
    peekTs ([[((5 : Nat), (0 : Nat))], [(5, 1)], [(5, 2)], [(5, 3)]].getD 1 []) = 5 ∧
    peekTs ([[((5 : Nat), (0 : Nat))], [(5, 1)], [(5, 2)], [(5, 3)]].getD 2 []) = 5 ∧
    peekTs ([[((5 : Nat), (0 : Nat))], [(5, 1)], [(5, 2)], [(5, 3)]].getD 3 []) = 5 ∧
    some ((5 : Nat), (2 : Nat)) ≠ some ((5 : Nat), (0 : Nat)) := by
  refine ⟨?_, rfl, rfl, rfl, rfl, by decide⟩
  simp [Tree.new, Tree.pop, Tree.leafValues, Tree.lowestLevel, Tree.fillLevels,
    Tree.fillRow, Tree.update_winner, Tree.updateLoop, Tree.streamPop, peekTs,
    u16of, nextPow2, U64MAX, List.range_succ]

/-- **C3 (amended).**  Ties are broken toward the lower leaf index only
at the lowest (leaf-pair) level of the build: for two inputs with equal
head timestamps the first pop does come from input 0.  At the higher
internal levels the build's comparison resolves ties toward the right
subtree's winner (and the per-pop update keeps the incumbent candidate on
ties), so with four or more inputs the packet returned on a tie need not
come from the lowest tied input index: with four equal heads the first
pop yields input 2's packet. -/
theorem tie_break_lowest_level_only {α : Type} (v : Nat) (da db : α)
    (ta tb : List (Nat × α)) (hv : v < U64MAX) :
    ((Tree.new [(v, da) :: ta, (v, db) :: tb]).pop).1 = some (v, da) ∧
    ((Tree.new [[((5 : Nat), (0 : Nat))], [(5, 1)], [(5, 2)], [(5, 3)]]).pop).1 =
      some (5, 2) := by
  constructor
  · have hne : v ≠ U64MAX := Nat.ne_of_lt hv
    simp [Tree.new, Tree.pop, Tree.leafValues, Tree.lowestLevel, Tree.fillLevels,
      Tree.fillRow, Tree.update_winner, Tree.updateLoop, Tree.streamPop, peekTs,
      u16of, nextPow2, List.range_succ, hne]
  · simp [Tree.new, Tree.pop, Tree.leafValues, Tree.lowestLevel, Tree.fillLevels,
      Tree.fillRow, Tree.update_winner, Tree.updateLoop, Tree.streamPop, peekTs,
      u16of, nextPow2, U64MAX, List.range_succ]

/-- **C3 witness.** -/
theorem tie_break_lowest_level_only_witness :
    ((Tree.new [[((4 : Nat), (10 : Nat))], [(4, 20)]]).pop).1 = some (4, 10) :=
  (tie_break_lowest_level_only 4 10 20 [] [] (by decide)).1

/-! ## C4: parser behaviour at reader EOF -/

/-- **C4 counterexample.**  A valid little-endian microsecond header
followed by a single stray byte: at reader EOF the buffer holds a
partially-filled record, yet the stream yields *no* items at all — the
`n_bytes_read == 0` branch of `poll_next` returns `Poll::Ready(None)`
without inspecting the buffer, so no final parse-error item is
produced. -/
theorem eof_partial_buffer_counterexample :
    (Packets.new ([0xD4, 0xC3, 0xB2, 0xA1] ++ List.replicate 20 0) [[0x01]]).map
      (fun st => st.drain 5) = some [] := by
  simp [Packets.new, pcapMagic, Packets.drain, Packets.poll_next, pollLoop,
    parse_pcap_frame, u32end, u32le, List.replicate]

/-- **C4 (amended).**  When every pending read of the underlying reader
is exhausted (the next read returns 0 bytes) and the buffered bytes do
not form a complete record — whether the buffer is empty or holds a
partially-filled record — `Packets::poll_next` yields completion
(`Poll::Ready(None)`); no final parse-error item is emitted and the
partial record is silently discarded. -/
theorem poll_next_eof_completion (st : Packets)
    (hp : parse_pcap_frame st.is_bigendian st.buffer = .incomplete)
    (hc : st.chunks = []) :
    st.poll_next = none := by
  rw [Packets.poll_next]
  split
  · rfl
  · rw [hc]
    simp [pollLoop, hp]

/-! ## Bit-level helpers: `^^^ 1` flips between the two slots of a pair -/

theorem xor_one_of_even {n : Nat} (h : n % 2 = 0) : n ^^^ 1 = n + 1 := by
  obtain ⟨m, rfl⟩ : ∃ m, n = 2 * m := ⟨n / 2, by omega⟩
  have hx := Nat.xor_bit false m true 0
  simpa [Nat.bit] using hx

theorem xor_one_of_odd {n : Nat} (h : n % 2 = 1) : n ^^^ 1 = n - 1 := by
  obtain ⟨m, rfl⟩ : ∃ m, n = 2 * m + 1 := ⟨n / 2, by omega⟩
  have hx := Nat.xor_bit true m true 0
  simpa [Nat.bit] using hx

theorem xor_one_cases (n : Nat) : n ^^^ 1 = n + 1 ∧ n % 2 = 0 ∨ n ^^^ 1 = n - 1 ∧ n % 2 = 1 := by
  rcases Nat.even_or_odd n with h | h
  · exact Or.inl ⟨xor_one_of_even (Nat.even_iff.mp h), Nat.even_iff.mp h⟩
  · exact Or.inr ⟨xor_one_of_odd (Nat.odd_iff.mp h), Nat.odd_iff.mp h⟩

theorem xor_one_div_two (n : Nat) : (n ^^^ 1) / 2 = n / 2 := by
  rcases xor_one_cases n with ⟨h, he⟩ | ⟨h, ho⟩ <;> rw [h] <;> omega

theorem xor_one_ne (n : Nat) : n ^^^ 1 ≠ n := by
  rcases xor_one_cases n with ⟨h, he⟩ | ⟨h, ho⟩ <;> omega

theorem xor_one_lt {n K : Nat} (hK : K % 2 = 0) (h : n < K) : n ^^^ 1 < K := by
  rcases xor_one_cases n with ⟨hx, he⟩ | ⟨hx, ho⟩ <;> omega

theorem xor_one_pair {n q : Nat} (h : n / 2 = q / 2) (hne : n ≠ q) : n = q ^^^ 1 := by
  rcases xor_one_cases q with ⟨hx, he⟩ | ⟨hx, ho⟩ <;> omega

/-! ## The ancestor relation of the implicit binary tree -/

theorem anc_refl (p : Nat) : anc p p := ⟨0, by simp⟩

theorem anc_trans {p q m : Nat} (h1 : anc p q) (h2 : anc q m) : anc p m := by
  obtain ⟨d, hd⟩ := h1
  obtain ⟨e, he⟩ := h2
  exact ⟨e + d, by rw [pow_add, ← Nat.div_div_eq_div_mul, he, hd]⟩

theorem anc_div_two (m : Nat) : anc (m / 2) m := ⟨1, by rw [pow_one]⟩

theorem anc_le {p m : Nat} (h : anc p m) : p ≤ m := by
  obtain ⟨d, rfl⟩ := h
  exact Nat.div_le_self _ _

/-- Halving chains from a common start are totally ordered by `anc`. -/
theorem anc_comparable {a b m : Nat} (ha : anc a m) (hb : anc b m) :
    anc a b ∨ anc b a := by
  obtain ⟨d, rfl⟩ := ha
  obtain ⟨e, rfl⟩ := hb
  rcases Nat.le_total d e with h | h
  · right
    refine ⟨e - d, ?_⟩
    rw [Nat.div_div_eq_div_mul, ← pow_add]
    congr 2
    omega
  · left
    refine ⟨d - e, ?_⟩
    rw [Nat.div_div_eq_div_mul, ← pow_add]
    congr 2
    omega

/-- The sibling of a proper ancestor is never itself an ancestor. -/
theorem not_anc_sibling {q m : Nat} (hq : 2 ≤ q) (h : anc q m) : ¬ anc (q ^^^ 1) m := by
  intro h'
  obtain ⟨a, ha⟩ := h
  obtain ⟨b, hb⟩ := h'
  have hne : q ^^^ 1 ≠ q := xor_one_ne q
  have hab : a ≠ b := by
    intro hcontra
    rw [hcontra, hb] at ha
    exact hne ha
  have hmono : ∀ {x y : Nat}, x < y → m / 2 ^ y ≤ m / 2 ^ x / 2 := by
    intro x y hxy
    rw [Nat.div_div_eq_div_mul, ← pow_succ]
    exact Nat.div_le_div_left (Nat.pow_le_pow_right (by norm_num) (by omega)) (by positivity)
  rcases xor_one_cases q with ⟨hx, he⟩ | ⟨hx, ho⟩
  · rcases Nat.lt_or_ge a b with hab' | hab'
    · have := hmono hab'
      rw [ha, hb] at this
      omega
    · have := hmono (show b < a by omega)
      rw [ha, hb] at this
      omega
  · rcases Nat.lt_or_ge a b with hab' | hab'
    · have := hmono hab'
      rw [ha, hb] at this
      omega
    · have := hmono (show b < a by omega)
      rw [ha, hb] at this
      omega

/-- Splitting a subtree at `p / 2` into the two child subtrees `p` and
`p ^^^ 1`. -/
theorem anc_div_two_iff {p x : Nat} (hp : 2 ≤ p) (hx : p / 2 < x) :
    anc (p / 2) x ↔ anc p x ∨ anc (p ^^^ 1) x := by
  constructor
  · rintro ⟨d, hd⟩
    rcases Nat.eq_zero_or_pos d with rfl | hdpos
    · simp at hd
      omega
    · have hy : x / 2 ^ (d - 1) / 2 = p / 2 := by
        rw [Nat.div_div_eq_div_mul, ← pow_succ]
        rw [show d - 1 + 1 = d by omega]
        exact hd
      set y := x / 2 ^ (d - 1) with hy'
      rcases eq_or_ne y p with rfl | hne
      · exact Or.inl ⟨d - 1, rfl⟩
      · right
        have hyp : y = p ^^^ 1 := xor_one_pair hy hne
        exact ⟨d - 1, by rw [← hy', hyp]⟩
  · rintro (h | h)
    · exact anc_trans (anc_div_two p) h
    · have : (p ^^^ 1) / 2 = p / 2 := xor_one_div_two p
      exact anc_trans (this ▸ anc_div_two (p ^^^ 1)) h

/-- In the bottom slot row (`K ≤ x < 2K`), `anc x` identifies the slot. -/
theorem anc_slot {K x j : Nat} (hx1 : K ≤ x) (hx2 : x < 2 * K) (hj : j < K) :
    anc x (K + j) ↔ K + j = x := by
  constructor
  · rintro ⟨d, hd⟩
    rcases Nat.eq_zero_or_pos d with rfl | hdpos
    · simpa using hd
    · exfalso
      have h1 : (K + j) / 2 ^ d ≤ (K + j) / 2 :=
        Nat.div_le_div_left (by
          calc (2 : Nat) = 2 ^ 1 := (pow_one 2).symm
          _ ≤ 2 ^ d := Nat.pow_le_pow_right (by norm_num) hdpos) (by norm_num)
      omega
  · rintro rfl
    exact anc_refl _

theorem exists_div_pow_eq_one : ∀ n : Nat, 1 ≤ n → ∃ d, n / 2 ^ d = 1 := by
  intro n
  induction n using Nat.strong_induction_on with
  | _ n ih =>
    intro hn
    rcases Nat.lt_or_ge n 2 with h | h
    · exact ⟨0, by omega⟩
    · obtain ⟨d, hd⟩ := ih (n / 2) (by omega) (by omega)
      exact ⟨d + 1, by rw [pow_succ, Nat.mul_comm, ← Nat.div_div_eq_div_mul, hd]⟩

/-- The root covers every leaf. -/
theorem covers_root {K : Nat} (j : Nat) (hK : 1 ≤ K) : covers K 1 j := by
  obtain ⟨d, hd⟩ := exists_div_pow_eq_one (K + j) (by omega)
  exact ⟨d, hd⟩

theorem covers_child_iff {K p j : Nat} (hp : 2 ≤ p) (hpK : p / 2 < K) :
    covers K (p / 2) j ↔ covers K p j ∨ covers K (p ^^^ 1) j :=
  anc_div_two_iff hp (by omega)

theorem covers_pair_left {K c : Nat} (hc : c < K) (hK : K % 2 = 0) :
    covers K (K / 2 + c / 2) c := by
  have : (K + c) / 2 = K / 2 + c / 2 := by omega
  exact this ▸ anc_div_two (K + c)

/-- The leaf-pair parent `K/2 + c/2` covers exactly the leaves `c` and
`c ^^^ 1`. -/
theorem covers_pair_iff {K c j : Nat} (hc : c < K) (hK : K % 2 = 0) (hj : j < K) :
    covers K (K / 2 + c / 2) j ↔ j = c ∨ j = c ^^^ 1 := by
  have hpar : K / 2 + c / 2 = (K + c) / 2 := by omega
  have hcx : c ^^^ 1 < K := xor_one_lt hK hc
  have hxor : K + (c ^^^ 1) = (K + c) ^^^ 1 := by
    rcases xor_one_cases c with ⟨hx, he⟩ | ⟨hx, ho⟩
    · rw [hx, xor_one_of_even (show (K + c) % 2 = 0 by omega)]
      omega
    · rw [hx, xor_one_of_odd (show (K + c) % 2 = 1 by omega)]
      omega
  have h1 : covers K (K + c) j ↔ K + j = K + c :=
    anc_slot (by omega) (by omega) hj
  have h2 : covers K ((K + c) ^^^ 1) j ↔ K + j = K + (c ^^^ 1) := by
    rw [← hxor]
    exact anc_slot (by omega) (by omega) hj
  rw [covers, hpar]
  rw [show anc ((K + c) / 2) (K + j) = covers K ((K + c) / 2) j from rfl]
  rw [covers_child_iff (by omega) (by omega), h1, h2]
  omega

/-! ## `nextPow2` specification -/

theorem nextPow2_isPow : ∀ n : Nat, ∃ k, nextPow2 n = 2 ^ k := by
  intro n
  induction n using Nat.strong_induction_on with
  | _ n ih =>
    rw [nextPow2]
    split
    · exact ⟨0, rfl⟩
    · rename_i h
      obtain ⟨k, hk⟩ := ih ((n + 1) / 2) (by omega)
      exact ⟨k + 1, by rw [hk, pow_succ]; ring⟩

theorem le_nextPow2 : ∀ n : Nat, n ≤ nextPow2 n := by
  intro n
  induction n using Nat.strong_induction_on with
  | _ n ih =>
    rw [nextPow2]
    split
    · omega
    · rename_i h
      have := ih ((n + 1) / 2) (by omega)
      omega

theorem nextPow2_le_pow : ∀ n j : Nat, n ≤ 2 ^ j → nextPow2 n ≤ 2 ^ j := by
  intro n
  induction n using Nat.strong_induction_on with
  | _ n ih =>
    intro j hj
    rw [nextPow2]
    split
    · exact Nat.one_le_two_pow
    · rename_i h
      have hj1 : 1 ≤ j := by
        by_contra hc
        interval_cases j <;> omega
      have hstep : (n + 1) / 2 ≤ 2 ^ (j - 1) := by
        have h2 : (2 : Nat) ^ j = 2 ^ (j - 1) * 2 := by
          rw [← pow_succ]
          congr 1
          omega
        omega
      have := ih ((n + 1) / 2) (by omega) (j - 1) hstep
      have h2 : (2 : Nat) ^ j = 2 ^ (j - 1) * 2 := by
        rw [← pow_succ]
        congr 1
        omega
      omega

/-! ## Characterisation of the `Tree::new` fold loops -/

theorem getD_lowestLevel {v nd : List Nat} {K : Nat} (hnd : nd.length = K)
    (hK : K % 2 = 0) (q : Nat) :
    (Tree.lowestLevel v nd K).getD q 0 =
      if K / 2 ≤ q ∧ 2 * q + 1 < K + K then
        u16of (if v.getD (2 * q + 1 - K) 0 < v.getD (2 * q - K) 0
               then 2 * q + 1 - K else 2 * q - K)
      else nd.getD q 0 := by
  have main : ∀ n, n ≤ K → ∀ q,
      ((List.range n).foldl
        (fun nd i =>
          if i % 2 ≠ 0 then
            nd.set (K / 2 + i / 2)
              (u16of (if v.getD i 0 < v.getD (i - 1) 0 then i else i - 1))
          else nd)
        nd).getD q 0 =
      if K / 2 ≤ q ∧ 2 * q + 1 < K + n then
        u16of (if v.getD (2 * q + 1 - K) 0 < v.getD (2 * q - K) 0
               then 2 * q + 1 - K else 2 * q - K)
      else nd.getD q 0 := by
    intro n
    induction n with
    | zero =>
      intro _ q
      simp only [List.range_zero, List.foldl_nil]
      rw [if_neg (by omega)]
    | succ n ihn =>
      intro hn q
      rw [List.range_succ, List.foldl_append, List.foldl_cons, List.foldl_nil]
      rcases Nat.eq_zero_or_pos (n % 2) with hpar | hpar
      · rw [if_neg (show ¬ (n % 2 ≠ 0) by omega)]
        rw [ihn (by omega) q]
        by_cases hq : K / 2 ≤ q ∧ 2 * q + 1 < K + n
        · rw [if_pos hq, if_pos (show K / 2 ≤ q ∧ 2 * q + 1 < K + (n + 1) by omega)]
        · rw [if_neg hq, if_neg (show ¬ (K / 2 ≤ q ∧ 2 * q + 1 < K + (n + 1)) by omega)]
      · rw [if_pos (show n % 2 ≠ 0 by omega)]
        have hlen : ((List.range n).foldl
            (fun nd i =>
          if i % 2 ≠ 0 then
            nd.set (K / 2 + i / 2)
              (u16of (if v.getD i 0 < v.getD (i - 1) 0 then i else i - 1))
          else nd) nd).length = K := by
          rw [foldl_length_inv]
          · exact hnd
          · intro nd' i
            dsimp only
            split <;> simp
        by_cases hq : q = K / 2 + n / 2
        · subst hq
          rw [getD_set_self (by rw [hlen]; omega)]
          rw [if_pos (show K / 2 ≤ K / 2 + n / 2 ∧
            2 * (K / 2 + n / 2) + 1 < K + (n + 1) by omega)]
          have h1 : 2 * (K / 2 + n / 2) + 1 - K = n := by omega
          have h2 : 2 * (K / 2 + n / 2) - K = n - 1 := by omega
          rw [h1, h2]
        · rw [getD_set_ne (fun hcontra => hq hcontra.symm)]
          rw [ihn (by omega) q]
          by_cases hq2 : K / 2 ≤ q ∧ 2 * q + 1 < K + n
          · rw [if_pos hq2,
              if_pos (show K / 2 ≤ q ∧ 2 * q + 1 < K + (n + 1) by omega)]
          · rw [if_neg hq2, if_neg (show ¬ (K / 2 ≤ q ∧ 2 * q + 1 < K + (n + 1)) by
              rintro ⟨ha, hb⟩
              apply hq2
              refine ⟨ha, ?_⟩
              have hne : 2 * q + 1 ≠ K + n := by
                intro hcontra
                apply hq
                omega
              omega)]
  unfold Tree.lowestLevel
  rw [main K le_rfl q]

theorem getD_fillRow {v nd : List Nat} {ls : Nat} (h4 : 4 * ls ≤ nd.length) (q : Nat) :
    (Tree.fillRow v nd ls).getD q 0 =
      if ls ≤ q ∧ q < 2 * ls then
        (if v.getD (nd.getD (2 * q) 0) 0 < v.getD (nd.getD (2 * q + 1) 0) 0
         then nd.getD (2 * q) 0 else nd.getD (2 * q + 1) 0)
      else nd.getD q 0 := by
  have main : ∀ n, n ≤ ls → ∀ q,
      ((List.range n).foldl
        (fun nd' j =>
          nd'.set (ls + j)
            (if v.getD (nd'.getD (2 * (ls + j)) 0) 0 <
                v.getD (nd'.getD (2 * (ls + j) + 1) 0) 0
             then nd'.getD (2 * (ls + j)) 0 else nd'.getD (2 * (ls + j) + 1) 0))
        nd).getD q 0 =
      if ls ≤ q ∧ q < ls + n then
        (if v.getD (nd.getD (2 * q) 0) 0 < v.getD (nd.getD (2 * q + 1) 0) 0
         then nd.getD (2 * q) 0 else nd.getD (2 * q + 1) 0)
      else nd.getD q 0 := by
    intro n
    induction n with
    | zero =>
      intro _ q
      simp only [List.range_zero, List.foldl_nil]
      rw [if_neg (by omega)]
    | succ n ihn =>
      intro hn q
      rw [List.range_succ, List.foldl_append, List.foldl_cons, List.foldl_nil]
      have hlen : ((List.range n).foldl
          (fun nd' j =>
          nd'.set (ls + j)
            (if v.getD (nd'.getD (2 * (ls + j)) 0) 0 <
                v.getD (nd'.getD (2 * (ls + j) + 1) 0) 0
             then nd'.getD (2 * (ls + j)) 0 else nd'.getD (2 * (ls + j) + 1) 0)) nd).length = nd.length := by
        rw [foldl_length_inv]
        intro nd' i
        simp
      have hreadl : ((List.range n).foldl
          (fun nd' j =>
          nd'.set (ls + j)
            (if v.getD (nd'.getD (2 * (ls + j)) 0) 0 <
                v.getD (nd'.getD (2 * (ls + j) + 1) 0) 0
             then nd'.getD (2 * (ls + j)) 0 else nd'.getD (2 * (ls + j) + 1) 0)) nd).getD (2 * (ls + n)) 0 =
          nd.getD (2 * (ls + n)) 0 := by
        rw [ihn (by omega) (2 * (ls + n))]
        rw [if_neg (show ¬ (ls ≤ 2 * (ls + n) ∧ 2 * (ls + n) < ls + n) by omega)]
      have hreadr : ((List.range n).foldl
          (fun nd' j =>
          nd'.set (ls + j)
            (if v.getD (nd'.getD (2 * (ls + j)) 0) 0 <
                v.getD (nd'.getD (2 * (ls + j) + 1) 0) 0
             then nd'.getD (2 * (ls + j)) 0 else nd'.getD (2 * (ls + j) + 1) 0)) nd).getD (2 * (ls + n) + 1) 0 =
          nd.getD (2 * (ls + n) + 1) 0 := by
        rw [ihn (by omega) (2 * (ls + n) + 1)]
        rw [if_neg (show ¬ (ls ≤ 2 * (ls + n) + 1 ∧ 2 * (ls + n) + 1 < ls + n) by omega)]
      by_cases hq : q = ls + n
      · subst hq
        rw [getD_set_self (by rw [hlen]; omega)]
        rw [hreadl, hreadr,
          if_pos (show ls ≤ ls + n ∧ ls + n < ls + (n + 1) by omega)]
      · rw [getD_set_ne (fun hcontra => hq hcontra.symm)]
        rw [ihn (by omega) q]
        by_cases hq2 : ls ≤ q ∧ q < ls + n
        · rw [if_pos hq2, if_pos (show ls ≤ q ∧ q < ls + (n + 1) by omega)]
        · rw [if_neg hq2, if_neg (show ¬ (ls ≤ q ∧ q < ls + (n + 1)) by
            rintro ⟨ha, hb⟩
            exact hq2 ⟨ha, by omega⟩)]
  unfold Tree.fillRow
  rw [main ls le_rfl q, show ls + ls = 2 * ls by omega]

/-! ## `MinAt` for the freshly built tree -/

theorem minAt_congr {nodes nodes' v : List Nat} {K p : Nat}
    (h : nodes'.getD p 0 = nodes.getD p 0) (hm : MinAt nodes v K p) :
    MinAt nodes' v K p := by
  unfold MinAt at *
  rw [h]
  exact hm

theorem winner_combine {K : Nat} {v : List Nat} {p l r : Nat}
    (hp1 : 1 ≤ p) (hpK : p < K)
    (hl : l < K) (hr : r < K)
    (hcl : covers K (2 * p) l) (hcr : covers K (2 * p + 1) r)
    (hminl : ∀ j, j < K → covers K (2 * p) j → v.getD l 0 ≤ v.getD j 0)
    (hminr : ∀ j, j < K → covers K (2 * p + 1) j → v.getD r 0 ≤ v.getD j 0) :
    (if v.getD l 0 < v.getD r 0 then l else r) < K ∧
    covers K p (if v.getD l 0 < v.getD r 0 then l else r) ∧
    ∀ j, j < K → covers K p j →
      v.getD (if v.getD l 0 < v.getD r 0 then l else r) 0 ≤ v.getD j 0 := by
  have hdiv : (2 * p) / 2 = p := by omega
  have hxor : (2 * p) ^^^ 1 = 2 * p + 1 := xor_one_of_even (by omega)
  have hsplit : ∀ j, covers K p j ↔ covers K (2 * p) j ∨ covers K (2 * p + 1) j := by
    intro j
    have := covers_child_iff (K := K) (p := 2 * p) (j := j) (by omega) (by omega)
    rw [hdiv, hxor] at this
    exact this
  have hup : ∀ x, covers K (2 * p) x ∨ covers K (2 * p + 1) x → covers K p x := by
    intro x hx
    exact (hsplit x).mpr hx
  constructor
  · split <;> assumption
  constructor
  · split
    · exact hup l (Or.inl hcl)
    · exact hup r (Or.inr hcr)
  · intro j hj hcov
    rcases (hsplit j).mp hcov with hc | hc
    · have hbound := hminl j hj hc
      split
      · exact hbound
      · rename_i hlt
        omega
    · have hbound := hminr j hj hc
      split
      · rename_i hlt
        omega
      · exact hbound

theorem fillRow_minAt {K : Nat} {v nd : List Nat} {ls : Nat}
    (hnd : nd.length = K) (h1 : 1 ≤ ls) (h4 : 4 * ls ≤ K)
    (hkids : ∀ p, 2 * ls ≤ p → p < 4 * ls → MinAt nd v K p) :
    (∀ p, ls ≤ p → p < 2 * ls → MinAt (Tree.fillRow v nd ls) v K p) ∧
    (∀ q, ¬ (ls ≤ q ∧ q < 2 * ls) →
      (Tree.fillRow v nd ls).getD q 0 = nd.getD q 0) ∧
    (Tree.fillRow v nd ls).length = K := by
  have h4' : 4 * ls ≤ nd.length := by omega
  refine ⟨?_, ?_, ?_⟩
  · intro p hp1 hp2
    have hkl := hkids (2 * p) (by omega) (by omega)
    have hkr := hkids (2 * p + 1) (by omega) (by omega)
    obtain ⟨hl1, hl2, hl3⟩ := hkl
    obtain ⟨hr1, hr2, hr3⟩ := hkr
    have hcomb := winner_combine (p := p) (by omega) (by omega) hl1 hr1 hl2 hr2 hl3 hr3
    unfold MinAt
    rw [getD_fillRow h4' p, if_pos ⟨hp1, hp2⟩]
    exact hcomb
  · intro q hq
    rw [getD_fillRow h4' q, if_neg hq]
  · rw [length_fillRow, hnd]

theorem fillLevels_minAt {K : Nat} {v : List Nat} :
    ∀ (e : Nat) (ls : Nat) (nd : List Nat), ls = 2 ^ e → 4 * ls ≤ K →
      nd.length = K →
      (∀ p, 2 * ls ≤ p → p < K → MinAt nd v K p) →
      (∀ p, 1 ≤ p → p < K → MinAt (Tree.fillLevels v nd ls) v K p) ∧
      (Tree.fillLevels v nd ls).length = K := by
  intro e
  induction e with
  | zero =>
    intro ls nd hls h4 hnd hpre
    subst hls
    rw [pow_zero] at h4 ⊢
    rw [Tree.fillLevels, if_neg (by omega)]
    rw [show (1 : Nat) / 2 = 0 from rfl, Tree.fillLevels, if_pos rfl]
    obtain ⟨hnew, hold, hlen⟩ := @fillRow_minAt K v nd 1 hnd (by omega)
      (by omega) (fun p hp1 hp2 => hpre p (by omega) (by omega))
    refine ⟨?_, hlen⟩
    intro p hp1 hp2
    by_cases hp : 1 ≤ p ∧ p < 2 * 1
    · exact hnew p hp.1 hp.2
    · exact minAt_congr (hold p hp) (hpre p (by omega) hp2)
  | succ e ih =>
    intro ls nd hls h4 hnd hpre
    subst hls
    have hps : (2 : Nat) ^ (e + 1) = 2 ^ e * 2 := pow_succ 2 e
    have hpos : 1 ≤ (2 : Nat) ^ (e + 1) := Nat.one_le_two_pow
    rw [Tree.fillLevels, if_neg (by omega)]
    have hhalf : 2 ^ (e + 1) / 2 = 2 ^ e := by omega
    rw [hhalf]
    obtain ⟨hnew, hold, hlen⟩ := @fillRow_minAt K v nd (2 ^ (e + 1)) hnd
      hpos h4 (fun p hp1 hp2 => hpre p (by omega) (by omega))
    exact ih (2 ^ e) (Tree.fillRow v nd (2 ^ (e + 1))) rfl (by omega) hlen
      (fun p hp1 hp2 => by
        by_cases hp : 2 ^ (e + 1) ≤ p ∧ p < 2 * 2 ^ (e + 1)
        · exact hnew p hp.1 hp.2
        · exact minAt_congr (hold p hp) (hpre p (by omega) hp2))

theorem lowestLevel_minAt {K : Nat} {v nd : List Nat}
    (hnd : nd.length = K) (hK : K % 2 = 0) (hsmall : K ≤ 2 ^ 16) :
    ∀ p, K / 2 ≤ p → p < K → MinAt (Tree.lowestLevel v nd K) v K p := by
  intro p hp1 hp2
  set c : Nat := 2 * p - K with hc
  have hcK : c < K := by omega
  have hceven : c % 2 = 0 := by omega
  have hcx : c ^^^ 1 = c + 1 := xor_one_of_even hceven
  have hpc : K / 2 + c / 2 = p := by omega
  have hpair := fun j (hj : j < K) =>
    covers_pair_iff (K := K) (c := c) (j := j) hcK hK hj
  rw [hpc] at hpair
  have hval : (Tree.lowestLevel v nd K).getD p 0 =
      u16of (if v.getD (2 * p + 1 - K) 0 < v.getD (2 * p - K) 0
             then 2 * p + 1 - K else 2 * p - K) := by
    rw [getD_lowestLevel hnd hK p, if_pos ⟨hp1, by omega⟩]
  have harg : (if v.getD (2 * p + 1 - K) 0 < v.getD (2 * p - K) 0
      then 2 * p + 1 - K else 2 * p - K) < K := by
    split <;> omega
  have hu16 : u16of (if v.getD (2 * p + 1 - K) 0 < v.getD (2 * p - K) 0
      then 2 * p + 1 - K else 2 * p - K) =
      (if v.getD (2 * p + 1 - K) 0 < v.getD (2 * p - K) 0
       then 2 * p + 1 - K else 2 * p - K) :=
    Nat.mod_eq_of_lt (by omega)
  unfold MinAt
  rw [hval, hu16]
  have hc1 : 2 * p + 1 - K = c + 1 := by omega
  have hc0 : 2 * p - K = c := by omega
  rw [hc1, hc0]
  refine ⟨by split <;> omega, ?_, ?_⟩
  · rcases Nat.lt_or_ge (v.getD (c + 1) 0) (v.getD c 0) with hlt | hge
    · rw [if_pos hlt]
      exact (hpair (c + 1) (by omega)).mpr (Or.inr (by omega))
    · rw [if_neg (by omega)]
      exact (hpair c (by omega)).mpr (Or.inl rfl)
  · intro j hj hcov
    rcases (hpair j hj).mp hcov with rfl | hx
    · split
      · rename_i hlt
        omega
      · exact le_refl _
    · rw [hcx] at hx
      subst hx
      split
      · exact le_refl _
      · rename_i hge
        omega

theorem values_new' {α : Type} (streams : List (List (Nat × α))) :
    (Tree.new streams).values =
      Tree.leafValues streams (nextPow2 streams.length) := by
  rw [values_new, new_K_eq]

theorem nodes_new {α : Type} (streams : List (List (Nat × α))) :
    (Tree.new streams).nodes =
      Tree.fillLevels (Tree.leafValues streams (nextPow2 streams.length))
        (Tree.lowestLevel (Tree.leafValues streams (nextPow2 streams.length))
          (List.replicate (nextPow2 streams.length)
            (u16of (nextPow2 streams.length - 1)))
          (nextPow2 streams.length))
        (nextPow2 streams.length / 4) := by
  simp only [Tree.new]
  rw [new_K_eq]

theorem wvi_new {α : Type} (streams : List (List (Nat × α))) :
    (Tree.new streams).winning_value_index =
      if nextPow2 streams.length > 1 then (Tree.new streams).nodes.getD 1 0
      else 0 := by
  rw [nodes_new]
  simp only [Tree.new]
  rw [new_K_eq]

theorem needs_new {α : Type} (streams : List (List (Nat × α))) :
    (Tree.new streams).needs_updating = false := rfl

/-- `Tree::new` establishes the tree invariant. -/
theorem inv_new {α : Type} (streams : List (List (Nat × α)))
    (hsort : ∀ s ∈ streams, List.Pairwise (fun a b => a.1 ≤ b.1) s)
    (hts : ∀ s ∈ streams, ∀ q ∈ s, q.1 < U64MAX)
    (hN : streams.length ≤ 2 ^ 16) :
    Tree.Inv (Tree.new streams) := by
  obtain ⟨k, hk⟩ := nextPow2_isPow streams.length
  have hKpos : 1 ≤ nextPow2 streams.length := by
    rw [hk]
    exact Nat.one_le_two_pow
  have hlenv := length_values_new streams
  have hlennd := length_nodes_new streams
  have hsmall : nextPow2 streams.length ≤ 2 ^ 16 := nextPow2_le_pow _ 16 hN
  have hNK : streams.length ≤ nextPow2 streams.length := le_nextPow2 _
  have hall : ∀ p, 1 ≤ p → p < nextPow2 streams.length →
      MinAt (Tree.new streams).nodes (Tree.new streams).values
        (nextPow2 streams.length) p := by
    rcases Nat.eq_zero_or_pos k with rfl | hkpos
    · intro p hp1 hp2
      rw [hk] at hp2
      simp at hp2
      omega
    · have hKeven : nextPow2 streams.length % 2 = 0 := by
        rw [hk]
        have : (2 : Nat) ^ k = 2 ^ (k - 1) * 2 := by
          rw [← pow_succ]
          congr 1
          omega
        omega
      have hrep : (List.replicate (nextPow2 streams.length)
          (u16of (nextPow2 streams.length - 1))).length =
          nextPow2 streams.length := List.length_replicate _ _
      have hlow := lowestLevel_minAt
        (v := Tree.leafValues streams (nextPow2 streams.length)) hrep hKeven hsmall
      rw [nodes_new, values_new']
      rcases Nat.lt_or_ge k 2 with hk1 | hk2
      · have hkone : k = 1 := by omega
        have hK2 : nextPow2 streams.length = 2 := by rw [hk, hkone]; norm_num
        have hquarter : nextPow2 streams.length / 4 = 0 := by omega
        rw [hquarter, Tree.fillLevels, if_pos rfl]
        intro p hp1 hp2
        exact hlow p (by omega) (by omega)
      · have h2k2 : (2 : Nat) ^ k = 2 ^ (k - 2) * 4 := by
          have : (2 : Nat) ^ k = 2 ^ (k - 2) * 2 ^ 2 := by
            rw [← pow_add]
            congr 1
            omega
          omega
        have hquarter : nextPow2 streams.length / 4 = 2 ^ (k - 2) := by
          rw [hk]
          omega
        rw [hquarter]
        have hlen1 : (Tree.lowestLevel
            (Tree.leafValues streams (nextPow2 streams.length))
            (List.replicate (nextPow2 streams.length)
              (u16of (nextPow2 streams.length - 1)))
            (nextPow2 streams.length)).length = nextPow2 streams.length := by
          rw [length_lowestLevel, hrep]
        have := fillLevels_minAt (K := nextPow2 streams.length)
          (v := Tree.leafValues streams (nextPow2 streams.length))
          (k - 2) (2 ^ (k - 2)) _ rfl (by omega) hlen1
          (fun p hp1 hp2 => hlow p (by omega) hp2)
        exact this.1
  have hwinfacts : (Tree.new streams).winning_value_index < nextPow2 streams.length ∧
      ∀ j, j < nextPow2 streams.length →
        (Tree.new streams).values.getD (Tree.new streams).winning_value_index 0 ≤
          (Tree.new streams).values.getD j 0 := by
    rcases Nat.eq_zero_or_pos k with rfl | hkpos
    · have hK1 : nextPow2 streams.length = 1 := by rw [hk]; rfl
      rw [wvi_new, if_neg (by omega)]
      refine ⟨by omega, ?_⟩
      intro j hj
      have : j = 0 := by omega
      subst this
      exact le_refl _
    · have hK2 : 2 ≤ nextPow2 streams.length := by
        rw [hk]
        calc (2 : Nat) = 2 ^ 1 := by norm_num
        _ ≤ 2 ^ k := Nat.pow_le_pow_right (by norm_num) hkpos
      have hroot := hall 1 (by omega) (by omega)
      obtain ⟨hr1, hr2, hr3⟩ := hroot
      rw [wvi_new, if_pos (by omega)]
      exact ⟨hr1, fun j hj => hr3 j hj (covers_root j (by omega))⟩
  refine
    { kpow := ⟨k, by rw [hlennd, hk]⟩
      vlen := by rw [hlenv, hlennd]
      slen := by rw [hlennd]; exact hNK
      ksmall := by rw [hlennd]; exact hsmall
      wlt := by rw [hlennd]; exact hwinfacts.1
      nodesInv := by
        rw [hlennd]
        intro p hp2 hpK
        exact hall p (by omega) hpK
      winMin := by
        rw [hlennd]
        exact hwinfacts.2
      vbound := by
        rw [hlennd]
        intro j hj
        rw [values_new', getD_leafValues streams hj]
        by_cases hjN : j < streams.length
        · refine peekTs_le (fun q hq => hts _ ?_ q hq)
          rw [List.getD_eq_getElem _ _ hjN]
          exact List.getElem_mem hjN
        · rw [List.getD_eq_default _ _ (by omega)]
          exact le_refl _
      fresh := by
        rw [hlennd]
        intro j hj _
        rw [values_new', getD_leafValues streams hj]
        rfl
      exhaustedPath := by
        intro h
        rw [needs_new] at h
        exact absurd h (by decide)
      sorted := hsort
      tsbound := hts }

/-! ## Correctness of the `update_winner` walk -/

/-- An ancestor of `c` strictly below the leaf-pair parent `(K+c)/2`
cannot exist among internal nodes. -/
theorem covers_anc_cases {K c p d : Nat} (hc : c < K) (hpK : p < K)
    (hd : (K + c) / 2 ^ d = p) : d ≠ 0 := by
  intro hcontra
  subst hcontra
  simp at hd
  omega

theorem updateLoop_spec {K k : Nat} (hKk : K = 2 ^ k) {v : List Nat}
    {c : Nat} (hcK : c < K) :
    ∀ ci nodes wv wvi,
      nodes.length = K →
      2 ≤ ci → ci < K →
      covers K ci c →
      (wvi < K ∧ wv = v.getD wvi 0 ∧ covers K ci wvi ∧
        ∀ j, j < K → covers K ci j → wv ≤ v.getD j 0) →
      (∀ p, 2 ≤ p → p < K → ¬ covers K p c → MinAt nodes v K p) →
      (∀ p, 2 ≤ p → p < K → covers K p c → anc ci p → MinAt nodes v K p) →
      ((Tree.updateLoop v nodes wv wvi ci).1.length = K ∧
       ((Tree.updateLoop v nodes wv wvi ci).2.2.2 = 2 ∨
         (Tree.updateLoop v nodes wv wvi ci).2.2.2 = 3) ∧
       covers K (Tree.updateLoop v nodes wv wvi ci).2.2.2 c ∧
       ((Tree.updateLoop v nodes wv wvi ci).2.2.1 < K ∧
         (Tree.updateLoop v nodes wv wvi ci).2.1 =
           v.getD (Tree.updateLoop v nodes wv wvi ci).2.2.1 0 ∧
         covers K (Tree.updateLoop v nodes wv wvi ci).2.2.2
           (Tree.updateLoop v nodes wv wvi ci).2.2.1 ∧
         ∀ j, j < K → covers K (Tree.updateLoop v nodes wv wvi ci).2.2.2 j →
           (Tree.updateLoop v nodes wv wvi ci).2.1 ≤ v.getD j 0) ∧
       (∀ p, 2 ≤ p → p < K → covers K p c →
         MinAt (Tree.updateLoop v nodes wv wvi ci).1 v K p) ∧
       (∀ p, 2 ≤ p → p < K → ¬ covers K p c →
         MinAt (Tree.updateLoop v nodes wv wvi ci).1 v K p) ∧
       (∀ p, ¬ covers K p c →
         (Tree.updateLoop v nodes wv wvi ci).1.getD p 0 = nodes.getD p 0)) := by
  intro ci
  induction ci using Nat.strong_induction_on with
  | _ ci ih =>
    intro nodes wv wvi hnd hci2 hciK hcov hcand hnon hanc
    rw [Tree.updateLoop]
    by_cases hci3 : ci > 3
    · rw [if_pos hci3]
      dsimp only
      have hKeven : K % 2 = 0 := by
        have hk1 : 1 ≤ k := by
          by_contra hcontra
          have : k = 0 := by omega
          subst this
          simp at hKk
          omega
        have : (2 : Nat) ^ k = 2 ^ (k - 1) * 2 := by
          rw [← pow_succ]
          congr 1
          omega
        omega
      have hsib2 : 2 ≤ ci ^^^ 1 := by
        rcases xor_one_cases ci with ⟨hx, _⟩ | ⟨hx, _⟩ <;> omega
      have hsibK : ci ^^^ 1 < K := xor_one_lt hKeven hciK
      have hsibnot : ¬ covers K (ci ^^^ 1) c := not_anc_sibling hci2 hcov
      obtain ⟨hs1, hs2, hs3⟩ := hnon (ci ^^^ 1) hsib2 hsibK hsibnot
      have hparent2 : 2 ≤ ci / 2 := by omega
      have hparentK : ci / 2 < K := by omega
      have hparcov : covers K (ci / 2) c := anc_trans (anc_div_two ci) hcov
      have hsplit : ∀ j, covers K (ci / 2) j ↔ covers K ci j ∨ covers K (ci ^^^ 1) j :=
        fun j => covers_child_iff hci2 hparentK
      obtain ⟨hc1, hc2, hc3, hc4⟩ := hcand
      -- the new candidate is the minimum over the parent's subtree
      have hcand' :
          (if v.getD (nodes.getD (ci ^^^ 1) 0) 0 < wv
            then nodes.getD (ci ^^^ 1) 0 else wvi) < K ∧
          (if v.getD (nodes.getD (ci ^^^ 1) 0) 0 < wv
            then v.getD (nodes.getD (ci ^^^ 1) 0) 0 else wv) =
            v.getD (if v.getD (nodes.getD (ci ^^^ 1) 0) 0 < wv
              then nodes.getD (ci ^^^ 1) 0 else wvi) 0 ∧
          covers K (ci / 2)
            (if v.getD (nodes.getD (ci ^^^ 1) 0) 0 < wv
              then nodes.getD (ci ^^^ 1) 0 else wvi) ∧
          ∀ j, j < K → covers K (ci / 2) j →
            (if v.getD (nodes.getD (ci ^^^ 1) 0) 0 < wv
              then v.getD (nodes.getD (ci ^^^ 1) 0) 0 else wv) ≤ v.getD j 0 := by
        refine ⟨by split <;> assumption, by split <;> [rfl; exact hc2], ?_, ?_⟩
        · split
          · exact (hsplit _).mpr (Or.inr hs2)
          · exact (hsplit _).mpr (Or.inl hc3)
        · intro j hj hcovj
          rcases (hsplit j).mp hcovj with hcj | hcj
          · have := hc4 j hj hcj
            split
            · rename_i hlt
              omega
            · exact this
          · have := hs3 j hj hcj
            split
            · exact this
            · rename_i hlt
              rw [hc2] at hlt ⊢
              omega
      -- the write at the parent gives `MinAt` there
      have hsetlen : (nodes.set (ci / 2)
          (if v.getD (nodes.getD (ci ^^^ 1) 0) 0 < wv
            then nodes.getD (ci ^^^ 1) 0 else wvi)).length = K := by
        rw [List.length_set, hnd]
      have hparMin : MinAt (nodes.set (ci / 2)
          (if v.getD (nodes.getD (ci ^^^ 1) 0) 0 < wv
            then nodes.getD (ci ^^^ 1) 0 else wvi)) v K (ci / 2) := by
        unfold MinAt
        rw [getD_set_self (by rw [hnd]; exact hparentK)]
        refine ⟨hcand'.1, hcand'.2.2.1, ?_⟩
        intro j hj hcovj
        rw [← hcand'.2.1]
        exact hcand'.2.2.2 j hj hcovj
      have hih := ih (ci / 2) (by omega) (nodes.set (ci / 2)
          (if v.getD (nodes.getD (ci ^^^ 1) 0) 0 < wv
            then nodes.getD (ci ^^^ 1) 0 else wvi))
        (if v.getD (nodes.getD (ci ^^^ 1) 0) 0 < wv
          then v.getD (nodes.getD (ci ^^^ 1) 0) 0 else wv)
        (if v.getD (nodes.getD (ci ^^^ 1) 0) 0 < wv
          then nodes.getD (ci ^^^ 1) 0 else wvi)
        hsetlen hparent2 hparentK hparcov hcand'
        (fun p hp2 hpK hpnot => by
          have hpne : p ≠ ci / 2 := fun hcontra => hpnot (hcontra ▸ hparcov)
          exact minAt_congr (getD_set_ne (fun h => hpne h.symm) _)
            (hnon p hp2 hpK hpnot))
        (fun p hp2 hpK hpcov hpanc => by
          by_cases hpe : p = ci / 2
          · subst hpe
            exact hparMin
          · have hanclow : anc ci p := by
              rcases anc_comparable (hpcov) (hcov) with hpa | hpa
              · obtain ⟨d, hd⟩ := hpa
                rcases Nat.eq_zero_or_pos d with rfl | hdpos
                · simp at hd
                  subst hd
                  exact anc_refl _
                · rcases Nat.eq_or_lt_of_le hdpos with hd1 | hd2
                  · exfalso
                    apply hpe
                    rw [← hd, ← hd1, pow_one]
                  · exfalso
                    have hple : ci / 2 ^ d ≤ ci / 2 ^ 2 :=
                      Nat.div_le_div_left
                        (Nat.pow_le_pow_right (by norm_num) (by omega))
                        (by norm_num)
                    have hles : ci / 2 ≤ p := anc_le hpanc
                    omega
              · exact hpa
            exact minAt_congr
              (getD_set_ne (fun h => hpe h.symm) _)
              (hanc p hp2 hpK hpcov hanclow))
      obtain ⟨a1, a2, a3, a4, a6, a7, a8⟩ := hih
      refine ⟨a1, a2, a3, a4, a6, a7, ?_⟩
      intro p hpnot
      rw [a8 p hpnot]
      have hpne : p ≠ ci / 2 := fun hcontra => hpnot (hcontra ▸ hparcov)
      exact getD_set_ne (fun h => hpne h.symm) _
    · rw [if_neg hci3]
      dsimp only
      obtain ⟨hc1, hc2, hc3, hc4⟩ := hcand
      refine ⟨hnd, by omega, hcov, ⟨hc1, hc2, hc3, hc4⟩,
        ?_, hnon, fun p _ => rfl⟩
      intro p hp2 hpK hpcov
      have hanclow : anc ci p := by
        rcases anc_comparable hpcov hcov with hpa | hpa
        · obtain ⟨d, hd⟩ := hpa
          rcases Nat.eq_zero_or_pos d with rfl | hdpos
          · simp at hd
            subst hd
            exact anc_refl _
          · exfalso
            have hple : ci / 2 ^ d ≤ ci / 2 ^ 1 :=
              Nat.div_le_div_left
                (Nat.pow_le_pow_right (by norm_num) (by omega)) (by norm_num)
            rw [pow_one] at hple
            omega
        · exact hpa
      exact hanc p hp2 hpK hpcov hanclow

/-- Full correctness of `Tree::update_winner`: with every non-ancestor
node of the changed leaf `c` still caching its subtree minimum, the walk
re-establishes the cache at every internal node and the cached winner
index becomes a global minimiser of `values`.  Nothing but `nodes` and
`winning_value_index` changes, and nodes outside `c`'s ancestor path keep
their contents. -/
theorem update_winner_spec {α : Type} (t : Tree α) (k c : Nat)
    (hK : t.nodes.length = 2 ^ k)
    (hv : t.values.length = t.nodes.length)
    (hc : c < t.nodes.length)
    (hw : t.winning_value_index < t.nodes.length)
    (hnon : ∀ p, 2 ≤ p → p < t.nodes.length → ¬ covers t.nodes.length p c →
      MinAt t.nodes t.values t.nodes.length p) :
    (t.update_winner c).values = t.values ∧
    (t.update_winner c).input_streams = t.input_streams ∧
    (t.update_winner c).needs_updating = t.needs_updating ∧
    (t.update_winner c).nodes.length = t.nodes.length ∧
    (∀ p, 2 ≤ p → p < t.nodes.length →
      MinAt (t.update_winner c).nodes t.values t.nodes.length p) ∧
    (t.update_winner c).winning_value_index < t.nodes.length ∧
    (∀ j, j < t.nodes.length →
      t.values.getD (t.update_winner c).winning_value_index 0 ≤
        t.values.getD j 0) ∧
    (∀ p, ¬ covers t.nodes.length p c →
      (t.update_winner c).nodes.getD p 0 = t.nodes.getD p 0) := by
  by_cases h2 : t.nodes.length > 1
  · have hKeven : t.nodes.length % 2 = 0 := by
      have hk1 : 1 ≤ k := by
        by_contra hcontra
        have : k = 0 := by omega
        subst this
        simp at hK
        omega
      have : (2 : Nat) ^ k = 2 ^ (k - 1) * 2 := by
        rw [← pow_succ]
        congr 1
        omega
      omega
    have hcx : c ^^^ 1 < t.nodes.length := xor_one_lt hKeven hc
    have hpairiff := fun j (hj : j < t.nodes.length) =>
      covers_pair_iff (K := t.nodes.length) (c := c) hc hKeven hj
    by_cases hpar : t.nodes.length / 2 + c / 2 > 1
    · -- K ≥ 4: the loop runs
      have hK4 : 4 ≤ t.nodes.length := by
        rcases Nat.lt_or_ge t.nodes.length 4 with h4 | h4
        · exfalso
          have : t.nodes.length = 2 := by
            rcases (show k = 1 ∨ k = 0 by
              by_contra hcontra
              have : 2 ≤ k := by omega
              have : (4 : Nat) = 2 ^ 2 := by norm_num
              have h22 : (2 : Nat) ^ 2 ≤ 2 ^ k :=
                Nat.pow_le_pow_right (by norm_num) (by omega)
              omega) with hk1 | hk0
            · rw [hK, hk1]; norm_num
            · exfalso; rw [hK, hk0] at h2; simp at h2
          omega
        · exact h4
      have hparent2 : 2 ≤ t.nodes.length / 2 + c / 2 := hpar
      have hparentK : t.nodes.length / 2 + c / 2 < t.nodes.length := by omega
      have hparcov : covers t.nodes.length (t.nodes.length / 2 + c / 2) c :=
        covers_pair_left hc hKeven
      -- the leaf-pair candidate
      have hwvi1K : (if t.values.getD (c ^^^ 1) 0 < t.values.getD c 0
          then c ^^^ 1 else c) < t.nodes.length := by
        split <;> assumption
      have hcand1 : (if t.values.getD (c ^^^ 1) 0 < t.values.getD c 0
            then c ^^^ 1 else c) < t.nodes.length ∧
          (if t.values.getD (c ^^^ 1) 0 < t.values.getD c 0
            then t.values.getD (c ^^^ 1) 0 else t.values.getD c 0) =
            t.values.getD (if t.values.getD (c ^^^ 1) 0 < t.values.getD c 0
              then c ^^^ 1 else c) 0 ∧
          covers t.nodes.length (t.nodes.length / 2 + c / 2)
            (if t.values.getD (c ^^^ 1) 0 < t.values.getD c 0
              then c ^^^ 1 else c) ∧
          ∀ j, j < t.nodes.length →
            covers t.nodes.length (t.nodes.length / 2 + c / 2) j →
            (if t.values.getD (c ^^^ 1) 0 < t.values.getD c 0
              then t.values.getD (c ^^^ 1) 0 else t.values.getD c 0) ≤
              t.values.getD j 0 := by
        refine ⟨hwvi1K, by split <;> rfl, ?_, ?_⟩
        · split
          · exact (hpairiff _ hcx).mpr (Or.inr rfl)
          · exact (hpairiff _ hc).mpr (Or.inl rfl)
        · intro j hj hcovj
          rcases (hpairiff j hj).mp hcovj with rfl | rfl
          · split
            · rename_i hlt
              omega
            · exact le_refl _
          · split
            · exact le_refl _
            · rename_i hge
              omega
      have hsetlen : (t.nodes.set (t.nodes.length / 2 + c / 2)
          (if t.values.getD (c ^^^ 1) 0 < t.values.getD c 0
            then c ^^^ 1 else c)).length = t.nodes.length := List.length_set _ _ _
      have hparMin : MinAt (t.nodes.set (t.nodes.length / 2 + c / 2)
          (if t.values.getD (c ^^^ 1) 0 < t.values.getD c 0
            then c ^^^ 1 else c)) t.values t.nodes.length
          (t.nodes.length / 2 + c / 2) := by
        unfold MinAt
        rw [getD_set_self (by omega)]
        exact ⟨hcand1.1, hcand1.2.2.1, fun j hj hcovj => by
          rw [← hcand1.2.1]
          exact hcand1.2.2.2 j hj hcovj⟩
      have hloop := updateLoop_spec (K := t.nodes.length) (k := k) hK
        (v := t.values) (c := c) hc
        (t.nodes.length / 2 + c / 2)
        (t.nodes.set (t.nodes.length / 2 + c / 2)
          (if t.values.getD (c ^^^ 1) 0 < t.values.getD c 0
            then c ^^^ 1 else c))
        (if t.values.getD (c ^^^ 1) 0 < t.values.getD c 0
          then t.values.getD (c ^^^ 1) 0 else t.values.getD c 0)
        (if t.values.getD (c ^^^ 1) 0 < t.values.getD c 0
          then c ^^^ 1 else c)
        hsetlen hparent2 hparentK hparcov hcand1
        (fun p hp2 hpK hpnot => by
          have hpne : p ≠ t.nodes.length / 2 + c / 2 :=
            fun hcontra => hpnot (hcontra ▸ hparcov)
          exact minAt_congr (getD_set_ne (fun h => hpne h.symm) _)
            (hnon p hp2 hpK hpnot))
        (fun p hp2 hpK hpcov hpanc => by
          by_cases hpe : p = t.nodes.length / 2 + c / 2
          · subst hpe
            exact hparMin
          · exfalso
            obtain ⟨d, hd⟩ := hpcov
            rcases Nat.eq_zero_or_pos d with rfl | hdpos
            · simp at hd
              omega
            · rcases Nat.eq_or_lt_of_le hdpos with hd1 | hd2
              · apply hpe
                rw [← hd, ← hd1, pow_one]
                omega
              · have hple : (t.nodes.length + c) / 2 ^ d ≤
                    (t.nodes.length + c) / 2 ^ 2 :=
                  Nat.div_le_div_left
                    (Nat.pow_le_pow_right (by norm_num) (by omega)) (by norm_num)
                have hles : t.nodes.length / 2 + c / 2 ≤ p := anc_le hpanc
                omega)
      obtain ⟨a1, a2, a3, a4, a6, a7, a8⟩ := hloop
      set r := Tree.updateLoop t.values
        (t.nodes.set (t.nodes.length / 2 + c / 2)
          (if t.values.getD (c ^^^ 1) 0 < t.values.getD c 0
            then c ^^^ 1 else c))
        (if t.values.getD (c ^^^ 1) 0 < t.values.getD c 0
          then t.values.getD (c ^^^ 1) 0 else t.values.getD c 0)
        (if t.values.getD (c ^^^ 1) 0 < t.values.getD c 0
          then c ^^^ 1 else c)
        (t.nodes.length / 2 + c / 2) with hr
      -- the final root comparison
      have hsib2 : 2 ≤ r.2.2.2 ^^^ 1 := by
        rcases a2 with h | h <;> rw [h] <;> decide
      have hsib3 : r.2.2.2 ^^^ 1 < 4 := by
        rcases a2 with h | h <;> rw [h] <;> decide
      have hsibK : r.2.2.2 ^^^ 1 < t.nodes.length := by omega
      have hsibnot : ¬ covers t.nodes.length (r.2.2.2 ^^^ 1) c :=
        not_anc_sibling (by rcases a2 with h | h <;> omega) a3
      obtain ⟨hs1, hs2, hs3⟩ := a7 (r.2.2.2 ^^^ 1) hsib2 hsibK hsibnot
      have hsplitroot : ∀ j, j < t.nodes.length →
          covers t.nodes.length r.2.2.2 j ∨
          covers t.nodes.length (r.2.2.2 ^^^ 1) j := by
        intro j hj
        have hroot : covers t.nodes.length 1 j := covers_root j (by omega)
        have hsplit2 := covers_child_iff (K := t.nodes.length) (p := 2) (j := j)
          (by norm_num) (by omega)
        have h23 : (2 : Nat) / 2 = 1 := by norm_num
        have hx23 : (2 : Nat) ^^^ 1 = 3 := by decide
        rw [h23, hx23] at hsplit2
        rcases a2 with h | h
        · rw [h]
          rw [show ((2 : Nat) ^^^ 1) = 3 by decide]
          rcases hsplit2.mp hroot with hcc | hcc
          · exact Or.inl hcc
          · exact Or.inr hcc
        · rw [h]
          rw [show ((3 : Nat) ^^^ 1) = 2 by decide]
          rcases hsplit2.mp hroot with hcc | hcc
          · exact Or.inr hcc
          · exact Or.inl hcc
      obtain ⟨b1, b2, b3, b4⟩ := a4
      rw [Tree.update_winner]
      rw [if_pos h2]
      dsimp only
      rw [if_pos hpar]
      rw [← hr]
      dsimp only
      refine ⟨rfl, rfl, rfl, a1, ?_, ?_, ?_, ?_⟩
      · intro p hp2 hpK
        by_cases hpcov : covers t.nodes.length p c
        · exact a6 p hp2 hpK hpcov
        · exact a7 p hp2 hpK hpcov
      · split
        · exact hs1
        · exact b1
      · intro j hj
        rcases hsplitroot j hj with hcc | hcc
        · have := b4 j hj hcc
          split
          · rename_i hgt
            omega
          · rw [← b2]
            exact this
        · have := hs3 j hj hcc
          split
          · exact this
          · rename_i hngt
            rw [← b2]
            omega
      · intro p hpnot
        rw [a8 p hpnot]
        have hpne : p ≠ t.nodes.length / 2 + c / 2 :=
          fun hcontra => hpnot (hcontra ▸ hparcov)
        exact getD_set_ne (fun h => hpne h.symm) _
    · -- K = 2: only the sibling-leaf comparison
      have hK2 : t.nodes.length = 2 := by
        have : t.nodes.length / 2 ≤ 1 := by omega
        have hKpow2 : t.nodes.length = 2 ^ k := hK
        rcases Nat.lt_or_ge k 2 with hk1 | hk2
        · interval_cases k
          · rw [hK] at h2; simp at h2
          · rw [hK]; norm_num
        · exfalso
          have h22 : (2 : Nat) ^ 2 ≤ 2 ^ k :=
            Nat.pow_le_pow_right (by norm_num) (by omega)
          have : (4 : Nat) = 2 ^ 2 := by norm_num
          omega
      rw [Tree.update_winner]
      rw [if_pos h2]
      dsimp only
      rw [if_neg hpar]
      dsimp only
      refine ⟨rfl, rfl, rfl, rfl, ?_, ?_, ?_, fun p _ => rfl⟩
      · intro p hp2 hpK
        omega
      · split <;> omega
      · intro j hj
        have hjc : j = c ∨ j = c ^^^ 1 := by
          rcases xor_one_cases c with ⟨hx, he⟩ | ⟨hx, ho⟩ <;> omega
        rcases hjc with rfl | rfl
        · split
          · rename_i hlt
            omega
          · exact le_refl _
        · split
          · exact le_refl _
          · rename_i hge
            omega
  · -- K = 1: update_winner is the identity
    rw [Tree.update_winner, if_neg h2]
    refine ⟨rfl, rfl, rfl, rfl, ?_, hw, ?_, fun p _ => rfl⟩
    · intro p hp2 hpK
      omega
    · intro j hj
      have hj0 : j = 0 := by omega
      have hw0 : t.winning_value_index = 0 := by omega
      rw [hj0, hw0]

/-- Once every leaf value is the `MAX_U64` sentinel and the changed
leaf's ancestors already cache it, the update loop rewrites each ancestor
with its existing contents: the node array is unchanged and the candidate
stays put. -/
theorem updateLoop_stable {K : Nat} {v nodes : List Nat} {c : Nat}
    (hKlen : nodes.length = K) (hcK : c < K) (hKeven : K % 2 = 0)
    (hallmax : ∀ j, j < K → v.getD j 0 = U64MAX)
    (hrange : ∀ p, 2 ≤ p → p < K → nodes.getD p 0 < K)
    (hanc : ∀ p, 2 ≤ p → p < K → covers K p c → nodes.getD p 0 = c) :
    ∀ ci, 2 ≤ ci → ci < K → covers K ci c →
      ∃ cf, Tree.updateLoop v nodes U64MAX c ci = (nodes, U64MAX, c, cf) ∧
        2 ≤ cf ∧ cf ≤ 3 ∧ covers K cf c := by
  intro ci
  induction ci using Nat.strong_induction_on with
  | _ ci ih =>
    intro hci2 hciK hcov
    rw [Tree.updateLoop]
    by_cases hci3 : ci > 3
    · rw [if_pos hci3]
      dsimp only
      have hsib2 : 2 ≤ ci ^^^ 1 := by
        rcases xor_one_cases ci with ⟨hx, _⟩ | ⟨hx, _⟩ <;> omega
      have hsibK : ci ^^^ 1 < K := xor_one_lt hKeven hciK
      have hsv : v.getD (nodes.getD (ci ^^^ 1) 0) 0 = U64MAX :=
        hallmax _ (hrange _ hsib2 hsibK)
      rw [hsv]
      rw [if_neg (lt_irrefl U64MAX), if_neg (lt_irrefl U64MAX)]
      have hpar2 : 2 ≤ ci / 2 := by omega
      have hparK : ci / 2 < K := by omega
      have hparcov : covers K (ci / 2) c := anc_trans (anc_div_two ci) hcov
      rw [set_getD_self (by omega) (hanc (ci / 2) hpar2 hparK hparcov)]
      exact ih (ci / 2) (by omega) hpar2 hparK hparcov
    · rw [if_neg hci3]
      exact ⟨ci, rfl, hci2, by omega, hcov⟩

/-- `update_winner` on a fully exhausted tree whose winner path already
caches the changed leaf: it changes nothing (the node writes are no-ops
and the cached winner index is rewritten with its existing value). -/
theorem update_winner_stable {α : Type} (t : Tree α) {k : Nat}
    (hK : t.nodes.length = 2 ^ k) (c : Nat) (hc : c < t.nodes.length)
    (hwc : t.winning_value_index = c)
    (hallmax : ∀ j, j < t.nodes.length → t.values.getD j 0 = U64MAX)
    (hrange : ∀ p, 2 ≤ p → p < t.nodes.length →
      t.nodes.getD p 0 < t.nodes.length)
    (hanc : ∀ p, 2 ≤ p → p < t.nodes.length → covers t.nodes.length p c →
      t.nodes.getD p 0 = c) :
    (t.update_winner c).nodes = t.nodes ∧
    (t.update_winner c).winning_value_index = c := by
  by_cases h2 : t.nodes.length > 1
  · have hKeven : t.nodes.length % 2 = 0 := by
      have hk1 : 1 ≤ k := by
        by_contra hcontra
        have : k = 0 := by omega
        subst this
        simp at hK
        omega
      have : (2 : Nat) ^ k = 2 ^ (k - 1) * 2 := by
        rw [← pow_succ]
        congr 1
        omega
      omega
    have hcx : c ^^^ 1 < t.nodes.length := xor_one_lt hKeven hc
    have hv0 : t.values.getD c 0 = U64MAX := hallmax c hc
    have hv1 : t.values.getD (c ^^^ 1) 0 = U64MAX := hallmax _ hcx
    rw [Tree.update_winner, if_pos h2]
    dsimp only
    rw [hv0, hv1, if_neg (lt_irrefl U64MAX), if_neg (lt_irrefl U64MAX)]
    by_cases hpar : t.nodes.length / 2 + c / 2 > 1
    · rw [if_pos hpar]
      dsimp only
      have hK4 : 4 ≤ t.nodes.length := by
        rcases Nat.lt_or_ge t.nodes.length 4 with h4 | h4
        · exfalso
          rcases (show k = 1 ∨ k = 0 by
            by_contra hcontra
            have h22 : (2 : Nat) ^ 2 ≤ 2 ^ k :=
              Nat.pow_le_pow_right (by norm_num) (by omega)
            have : (4 : Nat) = 2 ^ 2 := by norm_num
            omega) with hk1 | hk0
          · rw [hK, hk1] at hpar hc
            norm_num at hpar hc
            omega
          · rw [hK, hk0] at h2
            simp at h2
        · exact h4
      have hparK : t.nodes.length / 2 + c / 2 < t.nodes.length := by omega
      have hparcov : covers t.nodes.length (t.nodes.length / 2 + c / 2) c :=
        covers_pair_left hc hKeven
      rw [set_getD_self (by omega) (hanc _ hpar hparK hparcov)]
      obtain ⟨cf, hcf, hcf2, hcf3, hcfcov⟩ :=
        @updateLoop_stable t.nodes.length t.values t.nodes c rfl hc
          hKeven hallmax hrange hanc (t.nodes.length / 2 + c / 2) hpar hparK
          hparcov
      rw [hcf]
      dsimp only
      have hsib2 : 2 ≤ cf ^^^ 1 := by
        rcases xor_one_cases cf with ⟨hx, _⟩ | ⟨hx, _⟩ <;> omega
      have hsibK : cf ^^^ 1 < t.nodes.length := by
        rcases xor_one_cases cf with ⟨hx, _⟩ | ⟨hx, _⟩ <;> omega
      have hsv2 : t.values.getD (t.nodes.getD (cf ^^^ 1) 0) 0 = U64MAX :=
        hallmax _ (hrange _ hsib2 hsibK)
      rw [hsv2]
      rw [if_neg (lt_irrefl U64MAX)]
      exact ⟨rfl, rfl⟩
    · rw [if_neg hpar]
      exact ⟨rfl, rfl⟩
  · rw [Tree.update_winner, if_neg h2]
    exact ⟨rfl, hwc⟩

/-- The state `Tree::pop` consults after its optional refresh step: its
leaf values are exactly the current stream peeks, its cached winner is a
global minimiser, every internal node caches its subtree minimum, and —
when the refresh finds the merge complete — nothing changed except the
refreshed leaf. -/
theorem pop_mid {α : Type} {t : Tree α} (hInv : Tree.Inv t) :
    ∃ t1 : Tree α,
      t.pop = (if t1.values.getD t1.winning_value_index 0 = U64MAX
        then (none, t1)
        else ((Tree.streamPop (t1.input_streams.getD t1.winning_value_index [])).1,
          { t1 with needs_updating := true
                    input_streams := (t1.input_streams.set t1.winning_value_index
                      (Tree.streamPop (t1.input_streams.getD t1.winning_value_index [])).2) })) ∧
      t1.input_streams = t.input_streams ∧
      t1.needs_updating = t.needs_updating ∧
      t1.nodes.length = t.nodes.length ∧
      t1.values.length = t.nodes.length ∧
      t1.winning_value_index < t.nodes.length ∧
      (∀ j, j < t.nodes.length →
        t1.values.getD j 0 = peekTs (t.input_streams.getD j [])) ∧
      (∀ j, j < t.nodes.length →
        t1.values.getD t1.winning_value_index 0 ≤ t1.values.getD j 0) ∧
      (∀ p, 2 ≤ p → p < t.nodes.length →
        MinAt t1.nodes t1.values t.nodes.length p) ∧
      (t1.values.getD t1.winning_value_index 0 = U64MAX →
        t1.nodes = t.nodes ∧ t1.winning_value_index = t.winning_value_index ∧
        t1.values = (if t.needs_updating then
            t.values.set t.winning_value_index
              (peekTs (t.input_streams.getD t.winning_value_index []))
          else t.values) ∧
        (t.needs_updating = true →
          ∀ p, 2 ≤ p → p < t.nodes.length →
            covers t.nodes.length p t1.winning_value_index →
            t1.nodes.getD p 0 = t1.winning_value_index)) := by
  obtain ⟨k, hk⟩ := hInv.kpow
  rcases hbv : t.needs_updating with _ | _
  · -- no refresh: the consulted state is `t` itself
    refine ⟨t, ?_, rfl, hbv, rfl, hInv.vlen, hInv.wlt, ?_, hInv.winMin,
      hInv.nodesInv, ?_⟩
    · rw [Tree.pop]
      dsimp only
      rw [if_neg (show ¬ (t.needs_updating = true) by rw [hbv]; decide)]
    · intro j hj
      exact hInv.fresh j hj (fun habs => absurd (hbv ▸ habs) (by decide))
    · intro _
      refine ⟨rfl, rfl, ?_, ?_⟩
      · rw [if_neg (show ¬ ((false : Bool) = true) by decide)]
      · intro habs
        exact absurd habs (by decide)
  · -- refresh and update
    have hw := hInv.wlt
    have hu16 : u16of t.winning_value_index = t.winning_value_index := by
      unfold u16of
      have h16 : t.winning_value_index < 65536 := by
        have := hInv.ksmall
        have h2 : (2 : Nat) ^ 16 = 65536 := by norm_num
        omega
      exact Nat.mod_eq_of_lt h16
    set w := t.winning_value_index with hwdef
    set tR : Tree α :=
      { t with values := t.values.set w (peekTs (t.input_streams.getD w [])) }
      with htR
    have htRnodes : tR.nodes = t.nodes := rfl
    have htRlen : tR.nodes.length = t.nodes.length := rfl
    have htRvlen : tR.values.length = tR.nodes.length := by
      show (t.values.set w _).length = t.nodes.length
      rw [List.length_set]
      exact hInv.vlen
    have hnonR : ∀ p, 2 ≤ p → p < tR.nodes.length →
        ¬ covers tR.nodes.length p (u16of w) →
        MinAt tR.nodes tR.values tR.nodes.length p := by
      intro p hp2 hpK hpnot
      rw [htRlen] at hpK ⊢
      rw [hu16] at hpnot
      exact minAt_set_non_covered (hInv.nodesInv p hp2 hpK) hpnot
    have hspec := update_winner_spec tR k (u16of w)
      (by rw [htRlen, hk]) htRvlen
      (by rw [htRlen, hu16]; exact hw)
      (by show w < tR.nodes.length; rw [htRlen]; exact hw)
      hnonR
    obtain ⟨s1, s2, s3, s4, s5, s6, s7, s8⟩ := hspec
    have htRv : tR.values = t.values.set w (peekTs (t.input_streams.getD w [])) :=
      rfl
    have hfreshAll : ∀ j, j < t.nodes.length →
        (tR.update_winner (u16of w)).values.getD j 0 =
          peekTs (t.input_streams.getD j []) := by
      intro j hj
      rw [s1, htRv]
      by_cases hjw : j = w
      · subst hjw
        exact getD_set_self (by rw [hInv.vlen]; exact hw) _
      · rw [getD_set_ne (fun h => hjw h.symm)]
        exact hInv.fresh j hj (fun _ => hjw)
    have hargminAll : ∀ j, j < t.nodes.length →
        (tR.update_winner (u16of w)).values.getD
            (tR.update_winner (u16of w)).winning_value_index 0 ≤
          (tR.update_winner (u16of w)).values.getD j 0 := by
      intro j hj
      rw [s1]
      exact s7 j (by rw [htRlen]; exact hj)
    refine ⟨tR.update_winner (u16of w), ?_, ?_, ?_, ?_, ?_, ?_, hfreshAll,
      hargminAll, ?_, ?_⟩
    · rw [Tree.pop]
      dsimp only
      rw [if_pos hbv]
    · rw [s2]
    · rw [s3]
      exact hbv
    · rw [s4, htRlen]
    · rw [s1, htRvlen, htRlen]
    · rw [htRlen] at s6
      exact s6
    · intro p hp2 hpK
      rw [s1]
      rw [htRlen] at s5
      exact s5 p hp2 hpK
    · -- the merge turned out complete: the update was a no-op
      intro hmax
      -- every refreshed leaf value is the sentinel
      have hallmax1 : ∀ j, j < t.nodes.length →
          (tR.update_winner (u16of w)).values.getD j 0 = U64MAX := by
        intro j hj
        have hle : (tR.update_winner (u16of w)).values.getD j 0 ≤ U64MAX := by
          rw [hfreshAll j hj]
          by_cases hjN : j < t.input_streams.length
          · refine peekTs_le (fun q hq => hInv.tsbound _ ?_ q hq)
            rw [List.getD_eq_getElem _ _ hjN]
            exact List.getElem_mem hjN
          · rw [List.getD_eq_default _ _ (by omega)]
            exact le_refl _
        have hge := hargminAll j hj
        rw [hmax] at hge
        omega
      -- every input stream is exhausted
      have hempty : ∀ j, j < t.nodes.length → t.input_streams.getD j [] = [] := by
        intro j hj
        have hpk : peekTs (t.input_streams.getD j []) = U64MAX := by
          rw [← hfreshAll j hj]
          exact hallmax1 j hj
        by_cases hjN : j < t.input_streams.length
        · refine (peekTs_eq_max_iff (fun q hq => hInv.tsbound _ ?_ q hq)).mp hpk
          rw [List.getD_eq_getElem _ _ hjN]
          exact List.getElem_mem hjN
        · exact List.getD_eq_default _ _ (by omega)
      have hpeekw : peekTs (t.input_streams.getD w []) = U64MAX := by
        rw [hempty w hw]
        rfl
      -- all tR values are the sentinel
      have hallmaxR : ∀ j, j < tR.nodes.length → tR.values.getD j 0 = U64MAX := by
        intro j hj
        rw [htRlen] at hj
        have := hallmax1 j hj
        rw [s1] at this
        exact this
      have hrangeR : ∀ p, 2 ≤ p → p < tR.nodes.length →
          tR.nodes.getD p 0 < tR.nodes.length := by
        intro p hp2 hpK
        rw [htRlen] at hpK ⊢
        exact (hInv.nodesInv p hp2 hpK).1
      -- the changed leaf's ancestors already cache it
      have hancR : ∀ p, 2 ≤ p → p < tR.nodes.length →
          covers tR.nodes.length p (u16of w) → tR.nodes.getD p 0 = u16of w := by
        intro p hp2 hpK hpcov
        rw [htRlen, hu16] at hpcov
        rw [htRlen] at hpK
        rw [hu16]
        show t.nodes.getD p 0 = w
        by_cases hstale : t.values.getD w 0 = U64MAX
        · exact hInv.exhaustedPath hbv hstale p hp2 hpK hpcov
        · obtain ⟨m1, m2, m3⟩ := hInv.nodesInv p hp2 hpK
          by_cases hnw : t.nodes.getD p 0 = w
          · exact hnw
          · exfalso
            have hup : t.values.getD (t.nodes.getD p 0) 0 ≤ t.values.getD w 0 :=
              m3 w hw hpcov
            have hmaxn : t.values.getD (t.nodes.getD p 0) 0 = U64MAX := by
              rw [hInv.fresh _ m1 (fun _ => hnw), hempty _ m1]
              rfl
            have := hInv.vbound w hw
            omega
      have hstable := update_winner_stable tR (k := k) (by rw [htRlen, hk])
        (u16of w) (by rw [htRlen, hu16]; exact hw)
        (by show w = u16of w; rw [hu16]) hallmaxR hrangeR hancR
      refine ⟨by rw [hstable.1], by rw [hstable.2, hu16], ?_, ?_⟩
      · rw [s1, if_pos (show (true : Bool) = true from rfl)]
      · intro _ p hp2 hpK hpcov
        rw [hstable.2] at hpcov
        rw [hstable.1, htRnodes, hstable.2, hu16]
        have hres := hancR p hp2 (by rw [htRlen]; exact hpK)
          (by rw [htRlen]; exact hpcov)
        rw [hu16] at hres
        exact hres

/-- When `Tree::pop` returns `None` on an invariant state, every input
stream is exhausted, the invariant is preserved, and the state is frozen:
streams, nodes, winner index and `needs_updating` are all unchanged (the
leaf of the previous winner may merely have been refreshed to the
sentinel). -/
theorem pop_none_spec {α : Type} {t : Tree α} (hInv : Tree.Inv t)
    (hnone : (t.pop).1 = none) :
    Tree.Inv (t.pop).2 ∧
    (t.pop).2.input_streams = t.input_streams ∧
    (∀ s ∈ t.input_streams, s = []) ∧
    (t.pop).2.needs_updating = t.needs_updating ∧
    (t.pop).2.nodes = t.nodes ∧
    (t.pop).2.winning_value_index = t.winning_value_index ∧
    (t.pop).2.values = (if t.needs_updating then
        t.values.set t.winning_value_index
          (peekTs (t.input_streams.getD t.winning_value_index []))
      else t.values) := by
  obtain ⟨k, hk⟩ := hInv.kpow
  obtain ⟨t1, heq, hstr, hnd, hlen1, hlen2, hwlt1, hfresh1, hmin1, hminat1,
    hframe⟩ := pop_mid hInv
  by_cases hg : t1.values.getD t1.winning_value_index 0 = U64MAX
  · have h2 : (t.pop).2 = t1 := by rw [heq, if_pos hg]
    obtain ⟨hf1, hf2, hf3, hf4⟩ := hframe hg
    have hempty : ∀ j, j < t.nodes.length → t.input_streams.getD j [] = [] := by
      intro j hj
      have hj1 : t1.values.getD j 0 = U64MAX := by
        have hle : t1.values.getD j 0 ≤ U64MAX := by
          rw [hfresh1 j hj]
          by_cases hjN : j < t.input_streams.length
          · refine peekTs_le (fun q hq => hInv.tsbound _ ?_ q hq)
            rw [List.getD_eq_getElem _ _ hjN]
            exact List.getElem_mem hjN
          · rw [List.getD_eq_default _ _ (by omega)]
            exact le_refl _
        have hge := hmin1 j hj
        rw [hg] at hge
        omega
      have hpk : peekTs (t.input_streams.getD j []) = U64MAX := by
        rw [← hfresh1 j hj]
        exact hj1
      by_cases hjN : j < t.input_streams.length
      · refine (peekTs_eq_max_iff (fun q hq => hInv.tsbound _ ?_ q hq)).mp hpk
        rw [List.getD_eq_getElem _ _ hjN]
        exact List.getElem_mem hjN
      · exact List.getD_eq_default _ _ (by omega)
    have hallE : ∀ s ∈ t.input_streams, s = [] := by
      intro s hs
      obtain ⟨i, hi, hieq⟩ := List.mem_iff_getElem.mp hs
      have hiK : i < t.nodes.length := lt_of_lt_of_le hi hInv.slen
      rw [← hieq, ← List.getD_eq_getElem _ _ hi]
      exact hempty i hiK
    refine ⟨?_, h2 ▸ hstr, hallE, h2 ▸ hnd, h2 ▸ hf1, h2 ▸ hf2, h2 ▸ hf3⟩
    rw [h2]
    refine ⟨⟨k, by rw [hlen1, hk]⟩, by rw [hlen2, hlen1], ?_, ?_, ?_, ?_,
      ?_, ?_, ?_, ?_, ?_, ?_⟩
    · rw [hstr, hlen1]
      exact hInv.slen
    · rw [hlen1]
      exact hInv.ksmall
    · rw [hlen1]
      exact hwlt1
    · intro p hp2 hpK
      rw [hlen1] at hpK ⊢
      exact hminat1 p hp2 hpK
    · intro j hj
      rw [hlen1] at hj
      exact hmin1 j hj
    · intro j hj
      rw [hlen1] at hj
      have hle : t1.values.getD j 0 ≤ U64MAX := by
        rw [hfresh1 j hj]
        by_cases hjN : j < t.input_streams.length
        · refine peekTs_le (fun q hq => hInv.tsbound _ ?_ q hq)
          rw [List.getD_eq_getElem _ _ hjN]
          exact List.getElem_mem hjN
        · rw [List.getD_eq_default _ _ (by omega)]
          exact le_refl _
      exact hle
    · intro j hj _
      rw [hlen1] at hj
      rw [hstr]
      exact hfresh1 j hj
    · intro h1 _ p hp2 hpK hpcov
      rw [hlen1] at hpK hpcov
      exact hf4 (hnd ▸ h1) p hp2 hpK hpcov
    · intro s hs
      rw [hstr] at hs
      exact hInv.sorted s hs
    · intro s hs
      rw [hstr] at hs
      exact hInv.tsbound s hs
  · exfalso
    rw [heq, if_neg hg] at hnone
    dsimp only at hnone
    cases hs : t1.input_streams.getD t1.winning_value_index [] with
    | nil =>
      rw [hstr] at hs
      exact hg (by rw [hfresh1 _ hwlt1, hs]; rfl)
    | cons q rest =>
      rw [hs] at hnone
      simp [Tree.streamPop] at hnone

/-- When `Tree::pop` returns a packet on an invariant state, the
invariant is preserved, the packet is the head of one input stream (which
loses exactly that head), and its timestamp is a lower bound on every
remaining stream's head timestamp. -/
theorem pop_some_spec {α : Type} {t : Tree α} {q : Nat × α} (hInv : Tree.Inv t)
    (hsome : (t.pop).1 = some q) :
    Tree.Inv (t.pop).2 ∧
    ∃ m, m < t.input_streams.length ∧
      t.input_streams.getD m [] = q :: ((t.pop).2.input_streams.getD m []) ∧
      (t.pop).2.input_streams =
        t.input_streams.set m (t.input_streams.getD m []).tail ∧
      (∀ j, q.1 ≤ peekTs ((t.pop).2.input_streams.getD j [])) := by
  obtain ⟨k, hk⟩ := hInv.kpow
  obtain ⟨t1, heq, hstr, hnd, hlen1, hlen2, hwlt1, hfresh1, hmin1, hminat1,
    hframe⟩ := pop_mid hInv
  by_cases hg : t1.values.getD t1.winning_value_index 0 = U64MAX
  · rw [heq, if_pos hg] at hsome
    exact absurd hsome (by simp)
  · rw [heq, if_neg hg] at hsome
    dsimp only at hsome
    have hpop2 : (t.pop).2 =
        { t1 with needs_updating := true
                  input_streams := (t1.input_streams.set t1.winning_value_index
                    (Tree.streamPop (t1.input_streams.getD
                      t1.winning_value_index [])).2) } := by
      rw [heq, if_neg hg]
    cases hs : t1.input_streams.getD t1.winning_value_index [] with
    | nil =>
      exfalso
      rw [hstr] at hs
      exact hg (by rw [hfresh1 _ hwlt1, hs]; rfl)
    | cons p rest =>
      rw [hs] at hsome
      have hpq : p = q := by
        simpa [Tree.streamPop] using hsome
      subst hpq
      rw [hs] at hpop2
      rw [hstr] at hs hpop2
      have hmN : t1.winning_value_index < t.input_streams.length := by
        by_contra hcon
        rw [List.getD_eq_default _ _ (by omega)] at hs
        exact List.noConfusion hs
      have hmem : t.input_streams.getD t1.winning_value_index [] ∈
          t.input_streams := by
        rw [List.getD_eq_getElem _ _ hmN]
        exact List.getElem_mem hmN
      have hpv : t1.values.getD t1.winning_value_index 0 = p.1 := by
        rw [hfresh1 _ hwlt1, hs]
        rfl
      have hple : p.1 < U64MAX := by
        refine hInv.tsbound _ hmem p ?_
        rw [hs]
        exact List.mem_cons_self _ _
      have hrest : ∀ b ∈ rest, p.1 ≤ b.1 := by
        have := hInv.sorted _ hmem
        rw [hs] at this
        exact (List.pairwise_cons.mp this).1
      have hsortedRest : List.Pairwise (fun a b => a.1 ≤ b.1) rest := by
        have := hInv.sorted _ hmem
        rw [hs] at this
        exact this.of_cons
      have hPi : (t.pop).2.input_streams =
          t.input_streams.set t1.winning_value_index rest := by
        rw [hpop2]
        rfl
      have hPn : (t.pop).2.nodes = t1.nodes := by
        rw [hpop2]
      have hPv : (t.pop).2.values = t1.values := by
        rw [hpop2]
      have hPw : (t.pop).2.winning_value_index = t1.winning_value_index := by
        rw [hpop2]
      have hPb : (t.pop).2.needs_updating = true := by
        rw [hpop2]
      have hgetm : (t.pop).2.input_streams.getD t1.winning_value_index [] =
          rest := by
        rw [hPi]
        exact getD_set_self hmN _
      refine ⟨?_, t1.winning_value_index, hmN, by rw [hgetm, hs], ?_, ?_⟩
      · -- the invariant is preserved
        refine ⟨⟨k, by rw [hPn, hlen1, hk]⟩, by rw [hPv, hPn, hlen2, hlen1],
          ?_, ?_, ?_, ?_, ?_, ?_, ?_, ?_, ?_, ?_⟩
        · rw [hPi, hPn, List.length_set, hlen1]
          exact hInv.slen
        · rw [hPn, hlen1]
          exact hInv.ksmall
        · rw [hPw, hPn, hlen1]
          exact hwlt1
        · intro p' hp2 hpK
          rw [hPn, hlen1] at hpK
          rw [hPn, hPv, hlen1]
          exact hminat1 p' hp2 hpK
        · intro j hj
          rw [hPn, hlen1] at hj
          rw [hPv, hPw]
          exact hmin1 j hj
        · intro j hj
          rw [hPn, hlen1] at hj
          rw [hPv, hfresh1 j hj]
          by_cases hjN : j < t.input_streams.length
          · refine peekTs_le (fun r hr => hInv.tsbound _ ?_ r hr)
            rw [List.getD_eq_getElem _ _ hjN]
            exact List.getElem_mem hjN
          · rw [List.getD_eq_default _ _ (by omega)]
            exact le_refl _
        · intro j hj hne
          rw [hPn, hlen1] at hj
          rw [hPb, hPw] at hne
          have hjm : j ≠ t1.winning_value_index := hne rfl
          rw [hPv, hPi, getD_set_ne (fun h => hjm h.symm)]
          exact hfresh1 j hj
        · intro _ h2
          exfalso
          rw [hPv, hPw] at h2
          exact hg h2
        · intro s hsm
          rw [hPi] at hsm
          rcases List.mem_or_eq_of_mem_set hsm with hin | hrfl
          · exact hInv.sorted s hin
          · rw [hrfl]
            exact hsortedRest
        · intro s hsm
          rw [hPi] at hsm
          rcases List.mem_or_eq_of_mem_set hsm with hin | hrfl
          · exact hInv.tsbound s hin
          · rw [hrfl]
            intro r hr
            exact hInv.tsbound _ hmem r (by rw [hs]; exact List.mem_cons_of_mem _ hr)
      · rw [hPi, hs]
        rfl
      · intro j
        by_cases hjm : j = t1.winning_value_index
        · subst hjm
          rw [hgetm]
          cases rest with
          | nil => exact le_of_lt hple
          | cons r rr => exact hrest r (List.mem_cons_self _ _)
        · rw [hPi, getD_set_ne (fun h => hjm h.symm)]
          by_cases hjK : j < t.nodes.length
          · rw [← hfresh1 j hjK, ← hpv]
            exact hmin1 j hjK
          · rw [List.getD_eq_default _ _ (by have := hInv.slen; omega)]
            exact le_of_lt hple

/-- Once every input stream is exhausted, `Tree::pop` reports `None`. -/
theorem pop_none_of_empty {α : Type} {t : Tree α} (hInv : Tree.Inv t)
    (hE : ∀ s ∈ t.input_streams, s = []) : (t.pop).1 = none := by
  obtain ⟨t1, heq, hstr, _, _, _, hwlt1, hfresh1, _, _, _⟩ := pop_mid hInv
  have hget : t.input_streams.getD t1.winning_value_index [] = [] := by
    by_cases hjN : t1.winning_value_index < t.input_streams.length
    · refine hE _ ?_
      rw [List.getD_eq_getElem _ _ hjN]
      exact List.getElem_mem hjN
    · exact List.getD_eq_default _ _ (by omega)
  have hg : t1.values.getD t1.winning_value_index 0 = U64MAX := by
    rw [hfresh1 _ hwlt1, hget]
    rfl
  rw [heq, if_pos hg]

/-- A single `Tree::pop` preserves the tree invariant. -/
theorem pop_inv {α : Type} {t : Tree α} (hInv : Tree.Inv t) :
    Tree.Inv (t.pop).2 := by
  rcases hr : (t.pop).1 with _ | q
  · exact (pop_none_spec hInv hr).1
  · exact (pop_some_spec hInv hr).1

/-- Every state reachable from `Tree::new` (on sorted inputs with genuine
timestamps and a fan-in of at most `2^16`) satisfies the tree invariant. -/
theorem reachable_inv {α : Type} {streams : List (List (Nat × α))} {t : Tree α}
    (hsort : ∀ s ∈ streams, List.Pairwise (fun p q => p.1 ≤ q.1) s)
    (hts : ∀ s ∈ streams, ∀ q ∈ s, q.1 < U64MAX)
    (hN : streams.length ≤ 2 ^ 16)
    (hr : Tree.Reachable streams t) : Tree.Inv t := by
  induction hr with
  | base => exact inv_new streams hsort hts hN
  | step _ ih => exact pop_inv ih

/-- In a non-decreasing stream the head timestamp bounds every member. -/
theorem peekTs_le_of_mem {α : Type} {s : List (Nat × α)}
    (hs : List.Pairwise (fun a b => a.1 ≤ b.1) s) {b : Nat × α} (hb : b ∈ s) :
    peekTs s ≤ b.1 := by
  cases s with
  | nil => cases hb
  | cons hd tl =>
    rcases List.mem_cons.mp hb with hrfl | htl
    · rw [hrfl]
      exact le_refl _
    · exact (List.pairwise_cons.mp hs).1 b htl

/-- Draining an invariant tree with enough fuel yields a non-decreasing
permutation of the concatenated remaining inputs. -/
theorem drain_spec {α : Type} :
    ∀ (fuel : Nat) (t : Tree α), Tree.Inv t →
      t.input_streams.flatten.length < fuel →
      List.Pairwise (fun a b => a.1 ≤ b.1) (t.drain fuel) ∧
      (t.drain fuel).Perm t.input_streams.flatten := by
  intro fuel
  induction fuel with
  | zero =>
    intro t _ h
    exact absurd h (by omega)
  | succ n ih =>
    intro t hInv hlt
    rcases htp : t.pop with ⟨o, t2⟩
    cases o with
    | none =>
      have hp1 : (t.pop).1 = none := by rw [htp]
      have hfl : t.input_streams.flatten = [] :=
        List.flatten_eq_nil_iff.mpr (pop_none_spec hInv hp1).2.2.1
      have hd : t.drain (n + 1) = [] := by
        show (match t.pop with
          | (none, _) => []
          | (some p, t') => p :: t'.drain n) = []
        rw [htp]
      rw [hd, hfl]
      exact ⟨List.Pairwise.nil, List.Perm.refl []⟩
    | some q =>
      have hp1 : (t.pop).1 = some q := by rw [htp]
      have ht2 : (t.pop).2 = t2 := by rw [htp]
      obtain ⟨hInv2, m, hmN, hdec, hset, hbound⟩ := pop_some_spec hInv hp1
      rw [ht2] at hInv2 hdec hset hbound
      have hd : t.drain (n + 1) = q :: t2.drain n := by
        show (match t.pop with
          | (none, _) => []
          | (some p, t') => p :: t'.drain n) = q :: t2.drain n
        rw [htp]
      have hgets : t.input_streams.getD m [] = t.input_streams[m] :=
        List.getD_eq_getElem _ _ hmN
      have hL : t.input_streams =
          t.input_streams.take m ++
            (q :: t2.input_streams.getD m []) :: t.input_streams.drop (m + 1) := by
        conv_lhs => rw [← List.take_append_drop m t.input_streams]
        rw [List.drop_eq_getElem_cons hmN, ← hgets, hdec]
      have htail : (t.input_streams.getD m []).tail =
          t2.input_streams.getD m [] := by
        rw [hdec]
        rfl
      have hS : t2.input_streams =
          t.input_streams.take m ++
            t2.input_streams.getD m [] :: t.input_streams.drop (m + 1) := by
        conv_lhs => rw [hset, List.set_eq_take_append_cons_drop, if_pos hmN,
          htail]
      have h1 : t.input_streams.flatten =
          (t.input_streams.take m).flatten ++
            q :: (t2.input_streams.getD m [] ++
              (t.input_streams.drop (m + 1)).flatten) := by
        conv_lhs => rw [hL]
        rw [List.flatten_append, List.flatten_cons, List.cons_append]
      have hflat2 : t2.input_streams.flatten =
          (t.input_streams.take m).flatten ++
            (t2.input_streams.getD m [] ++
              (t.input_streams.drop (m + 1)).flatten) := by
        conv_lhs => rw [hS]
        rw [List.flatten_append, List.flatten_cons]
      have hperm : t.input_streams.flatten.Perm
          (q :: t2.input_streams.flatten) := by
        rw [h1, hflat2]
        exact List.perm_middle
      have hlen2 : t2.input_streams.flatten.length < n := by
        have hle := hperm.length_eq
        simp only [List.length_cons] at hle
        omega
      obtain ⟨ihp, ihq⟩ := ih t2 hInv2 hlen2
      rw [hd]
      constructor
      · rw [List.pairwise_cons]
        refine ⟨?_, ihp⟩
        intro b hb
        have hbf : b ∈ t2.input_streams.flatten := ihq.subset hb
        obtain ⟨s, hsin, hbs⟩ := List.mem_flatten.mp hbf
        obtain ⟨i, hi, hieq⟩ := List.mem_iff_getElem.mp hsin
        have hq1 : q.1 ≤ peekTs (t2.input_streams.getD i []) := hbound i
        rw [List.getD_eq_getElem _ _ hi, hieq] at hq1
        exact le_trans hq1 (peekTs_le_of_mem (hInv2.sorted s hsin) hbs)
      · exact (List.Perm.cons q ihq).trans hperm.symm

/-- Once every input stream of an invariant tree is exhausted, any number
of further `Tree::pop` calls still reports `None`. -/
theorem popN_none_of_empty {α : Type} :
    ∀ (m : Nat) (t : Tree α), Tree.Inv t → (∀ s ∈ t.input_streams, s = []) →
      ((t.popN m).pop).1 = none := by
  intro m
  induction m with
  | zero =>
    intro t hInv hE
    exact pop_none_of_empty hInv hE
  | succ n ih =>
    intro t hInv hE
    show (((t.pop).2.popN n).pop).1 = none
    have hnone := pop_none_of_empty hInv hE
    obtain ⟨hInv2, hstr, _, _, _, _, _⟩ := pop_none_spec hInv hnone
    exact ih (t.pop).2 hInv2 (by rw [hstr]; exact hE)

/-! ## C1: sorted permutation merge -/

/-- **C1.**  For every finite vector of input streams, each individually
non-decreasing in timestamp (with genuine timestamps below the `MAX_U64`
sentinel and at most `2^16` inputs, so the `u16` node indices are
faithful), draining the tree built by `Tree::new` by repeated `Tree::pop`
emits a non-decreasing sequence that is a permutation of the inputs'
concatenation; in particular the number of emitted packets equals the sum
of the inputs' packet counts. -/
theorem merge_sorted_permutation {α : Type} (streams : List (List (Nat × α)))
    (hsort : ∀ s ∈ streams, List.Pairwise (fun a b => a.1 ≤ b.1) s)
    (hts : ∀ s ∈ streams, ∀ q ∈ s, q.1 < U64MAX)
    (hN : streams.length ≤ 2 ^ 16)
    (fuel : Nat) (hfuel : totalLen streams < fuel) :
    List.Pairwise (fun a b => a.1 ≤ b.1) ((Tree.new streams).drain fuel) ∧
    ((Tree.new streams).drain fuel).Perm streams.flatten ∧
    ((Tree.new streams).drain fuel).length = totalLen streams := by
  have hstr : (Tree.new streams).input_streams = streams := rfl
  have hflen : streams.flatten.length = totalLen streams := by
    rw [totalLen, List.length_flatten]
  obtain ⟨h1, h2⟩ := drain_spec fuel (Tree.new streams)
    (inv_new streams hsort hts hN) (by rw [hstr, hflen]; exact hfuel)
  rw [hstr] at h2
  exact ⟨h1, h2, by rw [h2.length_eq, hflen]⟩

/-- **C1 witness.** -/
theorem merge_sorted_permutation_witness :
    totalLen ([[((1 : Nat), (0 : Nat)), (3, 0)], [(2, 0)]]) < 4 ∧
    (List.Pairwise (fun a b => a.1 ≤ b.1)
        ((Tree.new [[((1 : Nat), (0 : Nat)), (3, 0)], [(2, 0)]]).drain 4) ∧
      ((Tree.new [[((1 : Nat), (0 : Nat)), (3, 0)], [(2, 0)]]).drain 4).Perm
        ([[((1 : Nat), (0 : Nat)), (3, 0)], [(2, 0)]].flatten) ∧
      ((Tree.new [[((1 : Nat), (0 : Nat)), (3, 0)], [(2, 0)]]).drain 4).length =
        totalLen [[((1 : Nat), (0 : Nat)), (3, 0)], [(2, 0)]]) :=
  ⟨by decide, merge_sorted_permutation _ (by decide) (by decide) (by decide) 4
    (by decide)⟩

/-! ## C8: the exhaustion sentinel -/

/-- **C8 counterexample.**  After popping the single packet of the lone
input `[(5, 0)]`, the reachable state has input stream `0` exhausted while
`values[0]` still holds the stale timestamp `5`, not `MAX_U64`: the
claimed equivalence fails at the previous winner's leaf while its refresh
is pending. -/
theorem exhaustion_sentinel_counterexample :
    Tree.Reachable [[((5 : Nat), (0 : Nat))]]
      (((Tree.new [[((5 : Nat), (0 : Nat))]]).pop).2) ∧
    ((Tree.new [[((5 : Nat), (0 : Nat))]]).pop).2.input_streams.getD 0 [] = [] ∧
    ((Tree.new [[((5 : Nat), (0 : Nat))]]).pop).2.values.getD 0 0 = 5 ∧
    (5 : Nat) ≠ U64MAX := by
  refine ⟨Tree.Reachable.step Tree.Reachable.base, ?_, ?_, by decide⟩
  · simp [Tree.new, Tree.pop, Tree.leafValues, Tree.lowestLevel, Tree.fillLevels,
      Tree.fillRow, Tree.update_winner, Tree.updateLoop, Tree.streamPop, peekTs,
      u16of, nextPow2, U64MAX, List.range_succ]
  · simp [Tree.new, Tree.pop, Tree.leafValues, Tree.lowestLevel, Tree.fillLevels,
      Tree.fillRow, Tree.update_winner, Tree.updateLoop, Tree.streamPop, peekTs,
      u16of, nextPow2, U64MAX, List.range_succ]

/-- **C8 (amended).**  In every reachable tree state (sorted inputs,
timestamps below `MAX_U64`, at most `2^16` inputs), `values[j] = MAX_U64`
iff input stream `j` is exhausted (out-of-range `j` reads the empty
stream), for every leaf `j` *except possibly the previous winner's leaf
while its refresh is pending* (`needs_updating` set): that one leaf may
hold the stale previously-emitted timestamp even though its stream is
already exhausted, and is reconciled at the start of the next pop. -/
theorem exhaustion_sentinel_iff {α : Type} {streams : List (List (Nat × α))}
    {t : Tree α}
    (hsort : ∀ s ∈ streams, List.Pairwise (fun a b => a.1 ≤ b.1) s)
    (hts : ∀ s ∈ streams, ∀ q ∈ s, q.1 < U64MAX)
    (hN : streams.length ≤ 2 ^ 16)
    (hr : Tree.Reachable streams t) :
    ∀ j, j < t.nodes.length →
      (t.needs_updating = true → j ≠ t.winning_value_index) →
      (t.values.getD j 0 = U64MAX ↔ t.input_streams.getD j [] = []) := by
  intro j hj hne
  have hInv := reachable_inv hsort hts hN hr
  rw [hInv.fresh j hj hne]
  by_cases hjN : j < t.input_streams.length
  · refine peekTs_eq_max_iff (fun q hq => hInv.tsbound _ ?_ q hq)
    rw [List.getD_eq_getElem _ _ hjN]
    exact List.getElem_mem hjN
  · rw [List.getD_eq_default _ _ (by omega)]
    exact ⟨fun _ => rfl, fun _ => rfl⟩

/-- **C8 witness.** -/
theorem exhaustion_sentinel_iff_witness :
    (0 : Nat) < (Tree.new [[((5 : Nat), (0 : Nat))]]).nodes.length ∧
    ((Tree.new [[((5 : Nat), (0 : Nat))]]).values.getD 0 0 = U64MAX ↔
      (Tree.new [[((5 : Nat), (0 : Nat))]]).input_streams.getD 0 [] = []) := by
  have hlen : (0 : Nat) < (Tree.new [[((5 : Nat), (0 : Nat))]]).nodes.length := by
    rw [length_nodes_new]
    simp [nextPow2]
  exact ⟨hlen, exhaustion_sentinel_iff (by decide) (by decide) (by decide)
    Tree.Reachable.base 0 hlen (by intro h; exact absurd h (by decide))⟩

/-! ## C10: the frame of a `None` pop -/

/-- **C10.**  Whenever `Tree::pop` returns `None` on a reachable state
(sorted inputs, timestamps below `MAX_U64`, at most `2^16` inputs), that
call advanced no input stream and changed no tree state beyond refreshing
the previous winner's leaf value (the node array, the cached winner index
and the `needs_updating` flag are all unchanged); and every subsequent
`Tree::pop` also returns `None`. -/
theorem pop_none_frame {α : Type} {streams : List (List (Nat × α))}
    {t : Tree α}
    (hsort : ∀ s ∈ streams, List.Pairwise (fun a b => a.1 ≤ b.1) s)
    (hts : ∀ s ∈ streams, ∀ q ∈ s, q.1 < U64MAX)
    (hN : streams.length ≤ 2 ^ 16)
    (hr : Tree.Reachable streams t)
    (hnone : (t.pop).1 = none) :
    (t.pop).2.input_streams = t.input_streams ∧
    (t.pop).2.nodes = t.nodes ∧
    (t.pop).2.winning_value_index = t.winning_value_index ∧
    (t.pop).2.needs_updating = t.needs_updating ∧
    (t.pop).2.values = (if t.needs_updating then
        t.values.set t.winning_value_index
          (peekTs (t.input_streams.getD t.winning_value_index []))
      else t.values) ∧
    ∀ m, ((((t.pop).2).popN m).pop).1 = none := by
  have hInv := reachable_inv hsort hts hN hr
  obtain ⟨hInv2, hstr, hallE, hnd, hnodes, hwvi, hvals⟩ :=
    pop_none_spec hInv hnone
  refine ⟨hstr, hnodes, hwvi, hnd, hvals, ?_⟩
  intro m
  exact popN_none_of_empty m _ hInv2 (by rw [hstr]; exact hallE)

/-- **C10 witness.** -/
theorem pop_none_frame_witness :
    ((((Tree.new [[((1 : Nat), (0 : Nat))]]).pop).2.pop).1 = none) ∧
    ((((Tree.new [[((1 : Nat), (0 : Nat))]]).pop).2.pop).2.nodes =
        ((Tree.new [[((1 : Nat), (0 : Nat))]]).pop).2.nodes ∧
      ∀ m,
        (((((Tree.new [[((1 : Nat), (0 : Nat))]]).pop).2.pop).2.popN m).pop).1 =
          none) := by
  have hnone : (((Tree.new [[((1 : Nat), (0 : Nat))]]).pop).2.pop).1 = none := by
    simp [Tree.new, Tree.pop, Tree.leafValues, Tree.lowestLevel, Tree.fillLevels,
      Tree.fillRow, Tree.update_winner, Tree.updateLoop, Tree.streamPop, peekTs,
      u16of, nextPow2, U64MAX, List.range_succ]
  have h := pop_none_frame (by decide) (by decide) (by decide)
    (Tree.Reachable.step Tree.Reachable.base) hnone
  exact ⟨hnone, h.2.1, h.2.2.2.2.2⟩

/-! ## C2: verbatim records and normalised timestamps -/

/-- A `u32` field read within the first 16 bytes sees only the record's
own header, not appended bytes. -/
theorem u32end_append (be : Bool) (r b2 : List Nat) (off : Nat)
    (h : off + 4 ≤ 16) (h16 : 16 ≤ r.length) :
    u32end be (r ++ b2) off = u32end be r off := by
  cases be with
  | false =>
    show u32le (r ++ b2) off = u32le r off
    unfold u32le
    rw [List.getD_append _ _ _ _ (by omega), List.getD_append _ _ _ _ (by omega),
      List.getD_append _ _ _ _ (by omega), List.getD_append _ _ _ _ (by omega)]
  | true =>
    show u32be (r ++ b2) off = u32be r off
    unfold u32be
    rw [List.getD_append _ _ _ _ (by omega), List.getD_append _ _ _ _ (by omega),
      List.getD_append _ _ _ _ (by omega), List.getD_append _ _ _ _ (by omega)]

/-- Parsing a buffer that begins with a complete well-formed record
succeeds, consumes exactly the record, and decodes its header fields. -/
theorem parse_append_record {be : Bool} {r b2 : List Nat} (h : recordWF be r) :
    parse_pcap_frame be (r ++ b2) =
      ParseResult.ok b2
        ⟨u32end be r 0, u32end be r 4, u32end be r 8, u32end be r 12,
          ((r ++ b2).drop 16).take (u32end be r 8)⟩ := by
  obtain ⟨h16, hlen⟩ := h
  have h0 := u32end_append be r b2 0 (by omega) h16
  have h4 := u32end_append be r b2 4 (by omega) h16
  have h8 := u32end_append be r b2 8 (by omega) h16
  have h12 := u32end_append be r b2 12 (by omega) h16
  rw [parse_pcap_frame]
  dsimp only
  rw [if_neg (show ¬ ((r ++ b2).length < 16) by rw [List.length_append]; omega)]
  rw [h8]
  rw [if_neg (show ¬ ((r ++ b2).length < 16 + u32end be r 8) by
    rw [List.length_append]; omega)]
  rw [h0, h4, h12]
  rw [show 16 + u32end be r 8 = r.length from hlen.symm, List.drop_left]

/-- Parsing a strict initial segment of a well-formed record reports an
incomplete input. -/
theorem parse_short_incomplete {be : Bool} {r buffer y : List Nat}
    (h : recordWF be r) (hy : buffer ++ y = r)
    (hlt : buffer.length < r.length) :
    parse_pcap_frame be buffer = ParseResult.incomplete := by
  obtain ⟨h16, hlen⟩ := h
  rw [parse_pcap_frame]
  dsimp only
  by_cases hb16 : buffer.length < 16
  · rw [if_pos hb16]
  · rw [if_neg hb16]
    have hcap : u32end be buffer 8 = u32end be r 8 := by
      have := u32end_append be buffer y 8 (by omega) (by omega)
      rw [hy] at this
      exact this.symm
    rw [if_pos (show buffer.length < 16 + u32end be buffer 8 by
      rw [hcap]; omega)]

/-- When `a ++ b = c ++ d` and `c` fits inside `a`, the concatenations
agree on the common split. -/
theorem split_long_side {β : Type} {a b c d : List β}
    (h : a ++ b = c ++ d) (hle : c.length ≤ a.length) :
    a = c ++ a.drop c.length ∧ d = a.drop c.length ++ b := by
  constructor
  · have htake : a.take c.length = c := by
      have h1 : (a ++ b).take c.length = (c ++ d).take c.length := by rw [h]
      rw [List.take_append_of_le_length hle,
        List.take_append_of_le_length (le_refl _), List.take_length] at h1
      exact h1
    conv_lhs => rw [← List.take_append_drop c.length a]
    rw [htake]
  · have h1 : (a ++ b).drop c.length = (c ++ d).drop c.length := by rw [h]
    rw [List.drop_append_of_le_length hle, List.drop_left] at h1
    exact h1.symm

/-- The `Packets::poll_next` parse loop, run on a buffered byte stream
whose remaining content begins with a complete well-formed record,
yields exactly that record verbatim with its normalised timestamp,
leaving the remaining bytes buffered. -/
theorem pollLoop_record (be : Bool) (mult : Nat) :
    ∀ (chunks : List (List Nat)) (buffer r rest : List Nat),
      recordWF be r → (∀ c ∈ chunks, c ≠ []) →
      buffer ++ chunks.flatten = r ++ rest →
      ∃ buf' chunks',
        pollLoop be mult buffer chunks =
          some (recItem be mult r, buf', chunks') ∧
        buf' ++ chunks'.flatten = rest ∧ (∀ c ∈ chunks', c ≠ []) := by
  intro chunks
  induction chunks with
  | nil =>
    intro buffer r rest hwf hch hfl
    simp only [List.flatten_nil, List.append_nil] at hfl
    subst hfl
    refine ⟨rest, [], ?_, by simp, by simp⟩
    simp only [pollLoop]
    rw [parse_append_record hwf]
    dsimp only
    rw [List.length_append,
      show r.length + rest.length - rest.length = r.length by omega,
      List.take_left]
    rfl
  | cons c cs ih =>
    intro buffer r rest hwf hch hfl
    by_cases hble : r.length ≤ buffer.length
    · obtain ⟨hae, hde⟩ := split_long_side hfl hble
      refine ⟨buffer.drop r.length, c :: cs, ?_, hde.symm, hch⟩
      conv_lhs => rw [hae]
      simp only [pollLoop]
      rw [parse_append_record hwf]
      dsimp only
      rw [List.length_append,
        show r.length + (buffer.drop r.length).length - (buffer.drop r.length).length
          = r.length by omega,
        List.take_left]
      rfl
    · have hlt : buffer.length < r.length := by omega
      obtain ⟨hre, _⟩ := split_long_side hfl.symm (le_of_lt hlt)
      have hshort : parse_pcap_frame be buffer = ParseResult.incomplete :=
        parse_short_incomplete ⟨hwf.1, hwf.2⟩ hre.symm hlt
      simp only [pollLoop]
      rw [hshort]
      dsimp only
      rw [if_neg (show ¬ (c.isEmpty = true) by
        simp only [List.isEmpty_iff]
        exact hch c (List.mem_cons_self _ _))]
      exact ih (buffer ++ c) r rest hwf
        (fun c' hc' => hch c' (List.mem_cons_of_mem _ hc'))
        (by rw [List.append_assoc]
            simpa only [List.flatten_cons] using hfl)

/-- Draining the `Packets` stream over a chunked reader whose bytes are a
concatenation of well-formed records yields exactly the records,
verbatim, with their normalised timestamps. -/
theorem packets_drain_go (be : Bool) (mult : Nat) :
    ∀ (recs : List (List Nat)) (buffer : List Nat) (chunks : List (List Nat)),
      (∀ r ∈ recs, recordWF be r) → (∀ c ∈ chunks, c ≠ []) →
      buffer ++ chunks.flatten = recs.flatten →
      Packets.drain ⟨mult, buffer, chunks, false, be⟩ (recs.length + 1) =
        recs.map (recItem be mult) := by
  intro recs
  induction recs with
  | nil =>
    intro buffer chunks _ hch hfl
    simp only [List.flatten_nil] at hfl
    obtain ⟨hb1, hb2⟩ := List.nil_eq_append.mp hfl.symm
    have hcn : chunks = [] := by
      cases chunks with
      | nil => rfl
      | cons c cs =>
        exact absurd ((List.flatten_eq_nil_iff.mp hb2) c
          (List.mem_cons_self _ _)) (hch c (List.mem_cons_self _ _))
    subst hcn
    subst hb1
    have hpn : Packets.poll_next ⟨mult, [], [], false, be⟩ = none := by
      rw [Packets.poll_next]
      rw [if_neg (show ¬ (([] : List Nat).isEmpty = true ∧ (false : Bool) = true)
        by simp)]
      rfl
    show (match Packets.poll_next ⟨mult, [], [], false, be⟩ with
      | none => []
      | some (item, st') => item :: st'.drain 0) = List.map (recItem be mult) []
    rw [hpn]
    rfl
  | cons r rs ih =>
    intro buffer chunks hwf hch hfl
    obtain ⟨buf', chunks', hpl, hfl', hch'⟩ :=
      pollLoop_record be mult chunks buffer r rs.flatten
        (hwf r (List.mem_cons_self _ _)) hch
        (by simpa only [List.flatten_cons] using hfl)
    have hpn : Packets.poll_next ⟨mult, buffer, chunks, false, be⟩ =
        some (recItem be mult r, ⟨mult, buf', chunks', false, be⟩) := by
      rw [Packets.poll_next]
      rw [if_neg (show ¬ (buffer.isEmpty = true ∧ (false : Bool) = true)
        by simp)]
      rw [hpl]
    show (match Packets.poll_next ⟨mult, buffer, chunks, false, be⟩ with
      | none => []
      | some (item, st') => item :: st'.drain (rs.length + 1)) =
      recItem be mult r :: rs.map (recItem be mult)
    rw [hpn]
    dsimp only
    congr 1
    exact ih buf' chunks'
      (fun r' h' => hwf r' (List.mem_cons_of_mem _ h')) hch' hfl'

/-- **C2.**  For every input whose 24-byte pcap header is one of the four
classic magics, each item the parser stream yields is the exact verbatim
record bytes of the input (16-byte record header plus `caplen` payload)
paired with the normalised nanosecond timestamp
`ts_sec * 1000000000 + ts_frac * multiplier`, where the multiplier is 1
for nanosecond-precision files and 1000 for microsecond-precision files;
consequently a microsecond packet `{ts_sec = 1, ts_usec = 500}` orders
before a nanosecond packet `{ts_sec = 1, ts_nsec = 600000}`. -/
theorem packets_verbatim_normalised (header : List Nat) (be ns : Bool)
    (hmag : pcapMagic header = some (be, ns))
    (recs chunks : List (List Nat))
    (hwf : ∀ r ∈ recs, recordWF be r)
    (hch : ∀ c ∈ chunks, c ≠ [])
    (hfl : chunks.flatten = recs.flatten) :
    (∃ st, Packets.new header chunks = some st ∧
      st.drain (recs.length + 1) =
        recs.map (recItem be (if ns then 1 else 1000))) ∧
    nanosecondTs 1 500 1000 < nanosecondTs 1 600000 1 := by
  refine ⟨⟨⟨if ns then 1 else 1000, [], chunks, false, be⟩, ?_, ?_⟩, by decide⟩
  · rw [Packets.new, hmag]
  · exact packets_drain_go be _ recs [] chunks hwf hch (by simpa using hfl)

/-- **C2 witness.** -/
theorem packets_verbatim_normalised_witness :
    pcapMagic PCAP_HDR_NSEC = some (false, true) ∧
    ((∃ st, Packets.new PCAP_HDR_NSEC
        [[1, 0, 0, 0, 244, 1, 0, 0, 2, 0, 0, 0, 2, 0, 0, 0, 171, 205]] =
          some st ∧
      st.drain 2 =
        [[1, 0, 0, 0, 244, 1, 0, 0, 2, 0, 0, 0, 2, 0, 0, 0, 171, 205]].map
          (recItem false (if true then 1 else 1000))) ∧
    nanosecondTs 1 500 1000 < nanosecondTs 1 600000 1) := by
  have hmag : pcapMagic PCAP_HDR_NSEC = some (false, true) := by decide
  exact ⟨hmag, packets_verbatim_normalised PCAP_HDR_NSEC false true hmag
    [[1, 0, 0, 0, 244, 1, 0, 0, 2, 0, 0, 0, 2, 0, 0, 0, 171, 205]]
    [[1, 0, 0, 0, 244, 1, 0, 0, 2, 0, 0, 0, 2, 0, 0, 0, 171, 205]]
    (by decide) (by decide) rfl⟩

/-! ## C7: comparison count of the pop update path -/

theorem updateLoopC_count (ci : Nat) : ∀ (v nd : List Nat) (wv wvi cnt : Nat),
    (Tree.updateLoopC v nd wv wvi ci cnt).2 = cnt + (Nat.log 2 ci - 1) := by
  induction ci using Nat.strong_induction_on with
  | _ ci ih =>
    intro v nd wv wvi cnt
    rw [Tree.updateLoopC]
    split
    · rename_i hci
      rw [ih (ci / 2) (by omega)]
      have hlog : Nat.log 2 (ci / 2) = Nat.log 2 ci - 1 := Nat.log_div_base 2 ci
      have hge : 2 ≤ Nat.log 2 ci := by
        have : 2 ^ 2 ≤ ci := by omega
        exact (Nat.pow_le_iff_le_log (by norm_num) (by omega)).mp this
      omega
    · rename_i hci
      have : Nat.log 2 ci ≤ 1 := by
        rcases Nat.eq_zero_or_pos ci with h0 | h0
        · simp [h0]
        · have := Nat.log_lt_of_lt_pow (b := 2) (by omega) (show ci < 2 ^ 2 by omega)
          omega
      omega

theorem updateLoopC_fst (ci : Nat) : ∀ (v nd : List Nat) (wv wvi cnt : Nat),
    (Tree.updateLoopC v nd wv wvi ci cnt).1 = Tree.updateLoop v nd wv wvi ci := by
  induction ci using Nat.strong_induction_on with
  | _ ci ih =>
    intro v nd wv wvi cnt
    rw [Tree.updateLoopC, Tree.updateLoop]
    split
    · exact ih (ci / 2) (by omega) _ _ _ _ _
    · rfl

theorem update_winnerC_fst {α : Type} (t : Tree α) (c : Nat) :
    (t.update_winnerC c).1 = t.update_winner c := by
  rw [Tree.update_winnerC, Tree.update_winner]
  dsimp only
  split
  · split
    · rw [updateLoopC_fst]
    · rfl
  · rfl

theorem update_winnerC_count {α : Type} (t : Tree α) (c : Nat) :
    (t.update_winnerC c).2 =
      if t.nodes.length > 1 then
        if t.nodes.length / 2 + c / 2 > 1 then
          1 + (Nat.log 2 (t.nodes.length / 2 + c / 2) - 1) + 1
        else 1
      else 0 := by
  rw [Tree.update_winnerC]
  dsimp only
  split
  · split
    · rw [updateLoopC_count]
      dsimp only
      omega
    · rfl
  · rfl

theorem popC_fst {α : Type} (t : Tree α) : (t.popC).1 = t.pop := by
  rw [Tree.popC, Tree.pop]
  dsimp only
  split
  · rw [update_winnerC_fst]
  · rfl

theorem popC_count {α : Type} (t : Tree α) :
    (t.popC).2 =
      if t.needs_updating then
        (Tree.update_winnerC
          { t with values :=
              (t.values.set t.winning_value_index
                (peekTs (t.input_streams.getD t.winning_value_index []))) }
          (u16of t.winning_value_index)).2
      else 0 := by
  rw [Tree.popC]
  dsimp only
  split
  · rfl
  · rfl

/-- **C7.**  After the initial build, every `Tree::pop` performs at most
`⌈log2 K⌉ = k` timestamp-value comparisons on its update path (where
`K = 2^k` is the leaf-slot count): the instrumented `popC` agrees with
`pop` and its comparison counter is exactly `k` on every pop that runs
the update path (one comparison per level), and `0` otherwise. -/
theorem pop_comparison_bound {α : Type} (t : Tree α) (k : Nat)
    (hK : t.nodes.length = 2 ^ k) (hw : t.winning_value_index < t.nodes.length) :
    (t.popC).1 = t.pop ∧
    (t.popC).2 ≤ Nat.log 2 t.nodes.length ∧
    (t.needs_updating = true → 1 ≤ k → (t.popC).2 = k) := by
  have hlogK : Nat.log 2 t.nodes.length = k := by
    rw [hK]; exact Nat.log_pow (by norm_num) k
  have hcount : (t.popC).2 =
      if t.needs_updating then (if 1 ≤ k then k else 0) else 0 := by
    rw [popC_count]
    rcases hb : t.needs_updating with _ | _
    · rfl
    · rw [if_pos rfl, if_pos rfl, update_winnerC_count]
      simp only [List.length_set]
      set c := u16of t.winning_value_index with hc
      have hcK : c < 2 ^ k := by
        have : c ≤ t.winning_value_index := Nat.mod_le _ _
        omega
      rcases Nat.eq_zero_or_pos k with hk0 | hkpos
      · subst hk0
        rw [if_neg (by omega), if_neg (by omega)]
      · have h2k : (2 : Nat) ^ k = 2 ^ (k - 1) * 2 := by
          rcases Nat.exists_eq_add_of_le hkpos with ⟨m, rfl⟩
          rw [Nat.add_comm 1 m, Nat.add_sub_cancel, Nat.pow_succ]
        have hK2 : 2 ≤ t.nodes.length := by
          have : 1 ≤ 2 ^ (k - 1) := Nat.one_le_two_pow
          omega
        rw [if_pos (by omega : t.nodes.length > 1), if_pos (by omega : 1 ≤ k)]
        have hdiv : t.nodes.length / 2 = 2 ^ (k - 1) := by
          rw [hK, h2k, Nat.mul_div_cancel _ (by norm_num)]
        rcases Nat.lt_or_ge k 2 with hk1 | hk2
        · have hk : k = 1 := by omega
          subst hk
          rw [if_neg (by simp at hdiv hcK ⊢; omega)]
        · have h2k1 : (2 : Nat) ≤ 2 ^ (k - 1) := by
            calc (2 : Nat) = 2 ^ 1 := by norm_num
            _ ≤ 2 ^ (k - 1) := Nat.pow_le_pow_right (by norm_num) (by omega)
          have hcd : c / 2 < 2 ^ (k - 1) := by omega
          have hlogpar : Nat.log 2 (t.nodes.length / 2 + c / 2) = k - 1 := by
            apply Nat.log_eq_of_pow_le_of_lt_pow (by omega)
            have hsk : k - 1 + 1 = k := by omega
            rw [hsk, hK] at *
            omega
          rw [if_pos (by omega), hlogpar]
          omega
  refine ⟨popC_fst t, ?_, ?_⟩
  · rw [hcount, hlogK]
    split <;> [split <;> omega; omega]
  · intro hn hk
    rw [hcount, if_pos hn, if_pos hk]

/-- **C7 witness.** -/
theorem pop_comparison_bound_witness :
    ((Tree.new [[((2 : Nat), (0 : Nat))], [(1, 1)]]).popC).1 =
        (Tree.new [[((2 : Nat), (0 : Nat))], [(1, 1)]]).pop ∧
    ((Tree.new [[((2 : Nat), (0 : Nat))], [(1, 1)]]).popC).2 ≤
        Nat.log 2 (Tree.new [[((2 : Nat), (0 : Nat))], [(1, 1)]]).nodes.length := by
  have h := pop_comparison_bound (Tree.new [[((2 : Nat), (0 : Nat))], [(1, 1)]]) 1
    (by rw [length_nodes_new]; simp [nextPow2])
    (by rw [length_nodes_new]
        simp only [Tree.new]
        simp [Tree.leafValues, Tree.lowestLevel, Tree.fillLevels, peekTs, u16of,
          nextPow2, List.range_succ])
  exact ⟨h.1, h.2.1⟩

/-- **C4 witness.** -/
theorem poll_next_eof_completion_witness :
    parse_pcap_frame false [0x01] = .incomplete ∧
    Packets.poll_next
      { ts_usec_multiplier := 1000, buffer := [0x01], chunks := [],
        reader_exhausted := false, is_bigendian := false } = none := by
  have hp : parse_pcap_frame false [0x01] = .incomplete := by
    rw [parse_pcap_frame]; norm_num
  exact ⟨hp, poll_next_eof_completion _ hp rfl⟩

end StreamMerge
